import Mathlib

/-!
Verification of the line-rewriting core of `secman.py` (module to manage
secrets in a project).  The file is modelled as the list of lines returned by
`readlines()`; each operation is embedded as a pure function from that list to
the list of chunks it writes back.  External collaborators (the Fernet cipher
from `crypto_utils`, `hashlib.sha512`, `base64.b64encode`, `datetime.now` and
the process environment) are abstract parameters gathered in `Ext`, exactly as
the spec treats them (cipher adapter, signature engine, environment lookup).
-/

namespace Secman

/-- Whitespace stripped by Python's `str.strip()` (and matched by `\s` in the
ASCII range used here). -/
def pyWS (c : Char) : Bool :=
  c == ' ' || c == '\t' || c == '\n' || c == '\r' || c == '\x0b' || c == '\x0c'

/-- First character of the regex identifier class `[a-zA-Z_]`. -/
def identStart (c : Char) : Bool := c.isAlpha || c == '_'

/-- Continuation character of the regex identifier class `[a-zA-Z0-9_]`. -/
def identChar (c : Char) : Bool := c.isAlphanum || c == '_'

/-- Drop characters satisfying `p` from the right end of a list. -/
def rstripBy (p : Char → Bool) (l : List Char) : List Char :=
  (l.reverse.dropWhile p).reverse

/-- Python `s.strip()`. -/
def pyStrip (s : String) : String := ⟨rstripBy pyWS (s.data.dropWhile pyWS)⟩

/-- Python `s.strip('"')`. -/
def stripQuotes (s : String) : String :=
  ⟨rstripBy (fun c => c == '"') (s.data.dropWhile (fun c => c == '"'))⟩

/-- Python `line.split("=", 1)`: `some (before, after)` at the first `'='`,
`none` when the line contains no `'='`. -/
def splitFirstEq : List Char → Option (List Char × List Char)
  | [] => none
  | c :: cs =>
    if c = '=' then some ([], cs)
    else (splitFirstEq cs).map (fun p => (c :: p.1, p.2))

/-- Python `line.startswith("#")`. -/
def startsHash (s : String) : Bool :=
  match s.data with
  | [] => false
  | c :: _ => c == '#'

/-- Python `s.endswith("_ENCRYPTED")`. -/
def EndsEnc (s : String) : Prop :=
  s.data.drop (s.data.length - 10) = "_ENCRYPTED".data

instance (s : String) : Decidable (EndsEnc s) :=
  inferInstanceAs (Decidable (_ = _))

/-- Python `s[:-10]`. -/
def dropLast10 (s : String) : String := ⟨s.data.take (s.data.length - 10)⟩

/-- Python `s[-8:]`. -/
def takeLast8 (s : String) : String := ⟨s.data.drop (s.data.length - 8)⟩

/-- `re.match(r"^\s*([a-zA-Z_][a-zA-Z0-9_]*_ENCRYPTED)\s*=", line)`, returning
the full matched name (group of `decrypt_secrets`' pattern; `encrypt_secrets`'
pattern captures the same name without the `_ENCRYPTED` suffix, recovered with
`dropLast10`). -/
def encLineFull (line : String) : Option String :=
  match line.data.dropWhile pyWS with
  | [] => none
  | c :: cs =>
    if identStart c then
      let run := (c :: cs).takeWhile identChar
      if EndsEnc ⟨run⟩ ∧ 11 ≤ run.length then
        match ((c :: cs).dropWhile identChar).dropWhile pyWS with
        | '=' :: _ => some ⟨run⟩
        | _ => none
      else none
    else none

/-- Base names `X` of `X_ENCRYPTED = ...` lines collected by
`encrypt_secrets` before its rewrite pass. -/
def encBaseNames (lines : List String) : List String :=
  lines.filterMap (fun l => (encLineFull l).map dropLast10)

/-- Full names `X_ENCRYPTED` collected by `decrypt_secrets` before its
rewrite pass. -/
def encFullNames (lines : List String) : List String :=
  lines.filterMap encLineFull

/-- The value part of `(.*?)["\']`: characters before the first quote, failing
at a newline (`.` does not match `\n`) or the end of the string. -/
def quoteSpan : List Char → Option (List Char)
  | [] => none
  | c :: cs =>
    if c = '"' ∨ c = '\'' then some []
    else if c = '\n' then none
    else (quoteSpan cs).map (fun v => c :: v)

/-- One anchored attempt of
`re.search(r'([a-zA-Z_][a-zA-Z0-9_]*)\s*=\s*["\'](.*?)["\']', line)`:
identifier, `=`, opening quote, then the shortest span up to a quote. -/
def matchSecretAt (cs : List Char) : Option (String × String) :=
  match cs with
  | [] => none
  | c :: _ =>
    if identStart c then
      let run := cs.takeWhile identChar
      match (cs.dropWhile identChar).dropWhile pyWS with
      | '=' :: r3 =>
        match r3.dropWhile pyWS with
        | [] => none
        | q :: body =>
          if q = '"' ∨ q = '\'' then (quoteSpan body).map (fun v => (⟨run⟩, ⟨v⟩))
          else none
      | _ => none
    else none

/-- `re.search`: try every start position from the left. -/
def searchSecret : List Char → Option (String × String)
  | [] => none
  | c :: cs =>
    match matchSecretAt (c :: cs) with
    | some r => some r
    | none => searchSecret cs

/-- `line.split("=")[0].strip()` as used by `delete_secret`. -/
def lhsName (line : String) : String :=
  match splitFirstEq line.data with
  | some p => pyStrip ⟨p.1⟩
  | none => pyStrip line

/-! ## External collaborators -/

/-- The collaborators `secman.py` imports: `crypto_utils.encrypt_value`
(`none` result models a raised exception; the key argument is `Option` because
Python may pass `None`), `crypto_utils.decrypt_value`, `hashlib.sha512` (the
digest as an opaque string), `base64.b64encode ∘ .decode`, and the
`datetime.now().strftime("%Y-%m-%d %H:%M:%S")` timestamp of the run. -/
structure Ext where
  encv : String → Option String → Option String
  decv : String → String → String
  sha512 : String → String
  b64encode : String → String
  now : String

/-- Python `f"{master_key}"` on an optional value (`None` prints as "None"). -/
def keyStr : Option String → String
  | some k => k
  | none => "None"

/-- `base64.b64encode(hashlib.sha512(f"{master_key}".encode()).digest()).decode()`
from `encrypt_secrets` (lines 196-200): the signature depends only on the
master key, not on the ciphertext or timestamp. -/
def signatureOf (x : Ext) (mk : Option String) : String :=
  x.b64encode (x.sha512 (keyStr mk))

def HEADER_DISCLAIMER : String :=
  "# Generated by secman.py. Do not edit manually, unless you know what you are doing"

/-! ## encrypt_secrets -/

/-- The two lines written for a newly encrypted secret (source line 201). -/
def encChunk (x : Ext) (mke : String) (mk : Option String) (name ct : String) :
    List String :=
  [name ++ " = \"\"\n",
   name ++ "_ENCRYPTED = \"" ++ ct ++ "\"    #" ++ mke ++ "," ++
     takeLast8 (signatureOf x mk) ++ "," ++ x.now ++ "\n"]

/-- Processing of one line inside `encrypt_secrets`' rewrite loop
(source lines 170-206): `some (countDelta, writtenLines)`, or `none` when
`encrypt_value` raises and the script exits. -/
def encStep (x : Ext) (mke : String) (mk : Option String) (seen : List String)
    (line : String) : Option (Nat × List String) :=
  if startsHash line ∨ pyStrip line = "" then some (0, [line])
  else
    match splitFirstEq line.data with
    | none => some (0, [line])
    | some p =>
      let sn := pyStrip ⟨p.1⟩
      let sv := stripQuotes (pyStrip ⟨p.2⟩)
      if sn = "MASTER_KEY_ENV" then some (0, [line])
      else if EndsEnc sn then some (0, [line])
      else if sn ∈ seen then some (0, [sn ++ " = \"\"\n"])
      else
        match x.encv sv mk with
        | none => none
        | some ct => some (1, encChunk x mke mk sn ct)

/-- `encrypt_secrets`' loop over all lines: `(some count, written)` on
success, `(none, writtenPrefix)` when the script exits mid-pass (the file has
already been truncated and partially rewritten). -/
def encLoop (x : Ext) (mke : String) (mk : Option String) (seen : List String) :
    List String → Option Nat × List String
  | [] => (some 0, [])
  | line :: rest =>
    match encStep x mke mk seen line with
    | none => (none, [])
    | some kc =>
      let r := encLoop x mke mk seen rest
      (r.1.map (fun n => kc.1 + n), kc.2 ++ r.2)

/-- `if not master_key: master_key = os.getenv(master_key_env)`
(source lines 157-158; both `None` and `""` are falsy). -/
def resolveKey (env : String → Option String) (mke : String) :
    Option String → Option String
  | some k => if k = "" then env mke else some k
  | none => env mke

/-- `encrypt_secrets(file_path, master_key_env, master_key)`: the result is
`(some count, fileContent)` on success and `(none, fileContent)` when the
script exits abnormally; `fileContent` is what is on disk afterwards.  An
empty file raises `IndexError` at `lines[0]` after the `open(..., "w")`
truncation, leaving an empty file. -/
def encrypt_secrets (x : Ext) (env : String → Option String) (lines : List String)
    (master_key_env : String) (master_key : Option String) :
    Option Nat × List String :=
  let mk := resolveKey env master_key_env master_key
  let seen := encBaseNames lines
  match lines with
  | [] => (none, [])
  | l0 :: _ =>
    let hdr : List String :=
      if pyStrip l0 = HEADER_DISCLAIMER then [] else [HEADER_DISCLAIMER ++ "\n"]
    let r := encLoop x master_key_env mk seen lines
    (r.1, hdr ++ r.2)

/-! ## decrypt_secrets -/

/-- Processing of one line inside `decrypt_secrets`' rewrite loop (source
lines 233-253): the lines written for it.  A line that is neither a comment
nor blank and has no regex match is written nowhere ("other lines are
removed"). -/
def decStep (decv : String → String → String) (mk : String)
    (fullNames : List String) (line : String) : List String :=
  if startsHash line ∨ pyStrip line = "" then [line]
  else
    match searchSecret line.data with
    | none => []
    | some nv =>
      if nv.1 = "MASTER_KEY_ENV" then [line]
      else if ¬ EndsEnc nv.1 ∧ (nv.1 ++ "_ENCRYPTED") ∉ fullNames then
        [nv.1 ++ " = \"" ++ nv.2 ++ "\"\n"]
      else if EndsEnc nv.1 then
        [dropLast10 nv.1 ++ " = \"" ++ decv nv.2 mk ++ "\"\n"]
      else []

/-- `decrypt_secrets`' loop over all lines. -/
def decLoop (decv : String → String → String) (mk : String)
    (fullNames : List String) : List String → List String
  | [] => []
  | line :: rest => decStep decv mk fullNames line ++ decLoop decv mk fullNames rest

/-- `decrypt_secrets(file_path, master_key_env, master_key)`: the passed
`master_key` argument is discarded — line 215 re-reads
`os.getenv(master_key_env)` unconditionally.  Returns `none` (no write at
all, the file is untouched) when the environment variable is unset or empty,
otherwise `some` of the rewritten file content. -/
def decrypt_secrets (decv : String → String → String) (env : String → Option String)
    (lines : List String) (master_key_env : String) (master_key : Option String) :
    Option (List String) :=
  match env master_key_env with
  | none => none
  | some k =>
    if k = "" then none
    else some (decLoop decv k (encFullNames lines) lines)

/-! ## delete_secret -/

/-- `delete_secret(file_path, secret_name)` (source lines 136-149): comments
and blank lines are kept, a line whose text before the first `'='` strips to
`secret_name` is dropped, everything else is kept. -/
def delete_secret (lines : List String) (secret_name : String) : List String :=
  match lines with
  | [] => []
  | line :: rest =>
    if startsHash line ∨ pyStrip line = "" then line :: delete_secret rest secret_name
    else if lhsName line = secret_name then delete_secret rest secret_name
    else line :: delete_secret rest secret_name

/-- A (Python/regex) identifier: non-empty, `[a-zA-Z_]` first, `[a-zA-Z0-9_]` after. -/
def IdentStr (s : String) : Prop :=
  s.data ≠ [] ∧ (∀ c ∈ s.data, identChar c = true) ∧ identStart s.data.headI = true

instance (s : String) : Decidable (IdentStr s) :=
  inferInstanceAs (Decidable (_ ∧ _ ∧ _))

/-- A line `encrypt_secrets` handles without mangling it on a repeated run:
a comment, a blank line, a line without `=`, or an assignment whose name is a
well-formed identifier. -/
def WellNamed (line : String) : Prop :=
  startsHash line = true ∨ pyStrip line = "" ∨ splitFirstEq line.data = none ∨
    IdentStr (lhsName line)

instance (line : String) : Decidable (WellNamed line) :=
  inferInstanceAs (Decidable (_ ∨ _ ∨ _ ∨ _))

/-! ## Character facts -/

theorem identStart_to_char {c : Char} (h : identStart c = true) : identChar c = true := by
  simp only [identStart, Bool.or_eq_true] at h
  rcases h with h | h
  · simp [identChar, Char.isAlphanum, h]
  · simp [identChar, h]

theorem identChar_not_ws {c : Char} (h : identChar c = true) : pyWS c = false := by
  cases hw : pyWS c with
  | false => rfl
  | true =>
    exfalso
    simp only [pyWS, Bool.or_eq_true, beq_iff_eq] at hw
    rcases hw with ((((rfl | rfl) | rfl) | rfl) | rfl) | rfl <;> exact absurd h (by decide)

theorem identChar_ne {c : Char} (h : identChar c = true) :
    c ≠ '=' ∧ c ≠ '#' ∧ c ≠ '"' ∧ c ≠ '\'' ∧ c ≠ '\n' := by
  refine ⟨?_, ?_, ?_, ?_, ?_⟩ <;> (rintro rfl; exact absurd h (by decide))

theorem identStart_ne_hash {c : Char} (h : identStart c = true) : c ≠ '#' := by
  rintro rfl; exact absurd h (by decide)

theorem pyWS_ne {c : Char} (h : pyWS c = true) : c ≠ '#' ∧ c ≠ '=' ∧ c ≠ '"' := by
  simp only [pyWS, Bool.or_eq_true, beq_iff_eq] at h
  rcases h with ((((rfl | rfl) | rfl) | rfl) | rfl) | rfl <;>
    exact ⟨by decide, by decide, by decide⟩

/-! ## List facts -/

theorem dropWhile_append_all {p : Char → Bool} {a b : List Char}
    (h : ∀ c ∈ a, p c = true) : (a ++ b).dropWhile p = b.dropWhile p := by
  induction a with
  | nil => rfl
  | cons c cs ih =>
    rw [List.cons_append, List.dropWhile_cons_of_pos (h c (List.mem_cons_self c cs))]
    exact ih fun x hx => h x (List.mem_cons_of_mem c hx)

theorem takeWhile_append_all {p : Char → Bool} {a b : List Char}
    (h : ∀ c ∈ a, p c = true) : (a ++ b).takeWhile p = a ++ b.takeWhile p := by
  induction a with
  | nil => rfl
  | cons c cs ih =>
    rw [List.cons_append, List.takeWhile_cons_of_pos (h c (List.mem_cons_self c cs)),
      ih fun x hx => h x (List.mem_cons_of_mem c hx), List.cons_append]

theorem dropWhile_of_all_neg {p : Char → Bool} {l : List Char}
    (h : ∀ c ∈ l, p c = false) : l.dropWhile p = l := by
  cases l with
  | nil => rfl
  | cons a m =>
    exact List.dropWhile_cons_of_neg (by simp [h a (List.mem_cons_self a m)])

theorem ident_take {a : List Char} {c : Char} {b : List Char}
    (ha : ∀ x ∈ a, identChar x = true) (hc : identChar c = false) :
    (a ++ c :: b).takeWhile identChar = a := by
  rw [takeWhile_append_all ha, List.takeWhile_cons_of_neg (by simp [hc]), List.append_nil]

theorem ident_drop {a : List Char} {c : Char} {b : List Char}
    (ha : ∀ x ∈ a, identChar x = true) (hc : identChar c = false) :
    (a ++ c :: b).dropWhile identChar = c :: b := by
  rw [dropWhile_append_all ha, List.dropWhile_cons_of_neg (by simp [hc])]

theorem dropWhile_append_last {p : Char → Bool} {a : List Char} {c : Char}
    (hc : p c = false) : ∃ b, (a ++ [c]).dropWhile p = b ++ [c] := by
  induction a with
  | nil =>
    refine ⟨[], ?_⟩
    rw [List.nil_append, List.dropWhile_cons_of_neg (by simp [hc])]
  | cons d ds ih =>
    by_cases hd : p d
    · obtain ⟨b, hb⟩ := ih
      refine ⟨b, ?_⟩
      rw [List.cons_append, List.dropWhile_cons_of_pos hd, hb]
    · refine ⟨d :: ds, ?_⟩
      rw [List.cons_append, List.dropWhile_cons_of_neg hd]

theorem mem_dropWhile_of_mem {p : Char → Bool} {l : List Char} {c : Char}
    (hc : c ∈ l) (hp : p c = false) : c ∈ l.dropWhile p := by
  induction l with
  | nil => cases hc
  | cons a m ih =>
    by_cases h : p a
    · rw [List.dropWhile_cons_of_pos h]
      rcases List.mem_cons.mp hc with rfl | hm
      · rw [hp] at h; cases h
      · exact ih hm
    · rw [List.dropWhile_cons_of_neg (by simp [h])]; exact hc

theorem mem_rstripBy_of_mem {p : Char → Bool} {l : List Char} {c : Char}
    (hc : c ∈ l) (hp : p c = false) : c ∈ rstripBy p l := by
  unfold rstripBy
  rw [List.mem_reverse]
  exact mem_dropWhile_of_mem (by rwa [List.mem_reverse]) hp

theorem rstripBy_append_all {p : Char → Bool} {a b : List Char}
    (h : ∀ c ∈ b, p c = true) : rstripBy p (a ++ b) = rstripBy p a := by
  unfold rstripBy
  rw [List.reverse_append, dropWhile_append_all]
  intro c hc
  exact h c (List.mem_reverse.mp hc)

theorem rstripBy_of_all_neg {p : Char → Bool} {l : List Char}
    (h : ∀ c ∈ l, p c = false) : rstripBy p l = l := by
  unfold rstripBy
  rw [dropWhile_of_all_neg (fun c hc => h c (List.mem_reverse.mp hc)), List.reverse_reverse]

theorem rstripBy_cons_head {p : Char → Bool} {c : Char} (t : List Char)
    (hc : p c = false) : ∃ b, rstripBy p (c :: t) = c :: b := by
  obtain ⟨b, hb⟩ := dropWhile_append_last (a := t.reverse) (c := c) hc
  refine ⟨b.reverse, ?_⟩
  unfold rstripBy
  rw [show (c :: t).reverse = t.reverse ++ [c] by simp, hb]
  simp

theorem splitFirstEq_append {a b : List Char} (h : '=' ∉ a) :
    splitFirstEq (a ++ '=' :: b) = some (a, b) := by
  induction a with
  | nil => simp [splitFirstEq]
  | cons c cs ih =>
    rw [List.cons_append]
    unfold splitFirstEq
    rw [if_neg (by rintro rfl; exact h (List.mem_cons_self _ _)),
      ih fun hm => h (List.mem_cons_of_mem c hm)]
    rfl

theorem splitFirstEq_of_not_mem {l : List Char} (h : '=' ∉ l) : splitFirstEq l = none := by
  induction l with
  | nil => rfl
  | cons c cs ih =>
    unfold splitFirstEq
    rw [if_neg (by rintro rfl; exact h (List.mem_cons_self _ _)),
      ih fun hm => h (List.mem_cons_of_mem c hm)]
    rfl

theorem splitFirstEq_eq_some {l : List Char} : ∀ {a b : List Char},
    splitFirstEq l = some (a, b) → l = a ++ '=' :: b ∧ '=' ∉ a := by
  induction l with
  | nil => intro a b h; cases h
  | cons c cs ih =>
    intro a b h
    by_cases hc : c = '='
    · subst hc
      rw [splitFirstEq, if_pos rfl] at h
      obtain ⟨rfl, rfl⟩ : [] = a ∧ cs = b := by
        have := Option.some.inj h
        exact ⟨congrArg Prod.fst this, congrArg Prod.snd this⟩
      simp
    · rw [splitFirstEq, if_neg hc] at h
      cases hsp : splitFirstEq cs with
      | none => rw [hsp] at h; cases h
      | some p =>
        rw [hsp] at h
        have h2 := Option.some.inj h
        obtain ⟨h3, h4⟩ := ih hsp
        have ha : a = c :: p.1 := (congrArg Prod.fst h2).symm
        have hb : b = p.2 := (congrArg Prod.snd h2).symm
        subst ha; subst hb
        constructor
        · rw [List.cons_append, ← h3]
        · intro hm
          rcases List.mem_cons.mp hm with h5 | h5
          · exact hc h5.symm
          · exact h4 h5

theorem quoteSpan_append {a : List Char} {q : Char} {b : List Char}
    (hq : q = '"' ∨ q = '\'')
    (ha : ∀ c ∈ a, c ≠ '"' ∧ c ≠ '\'' ∧ c ≠ '\n') :
    quoteSpan (a ++ q :: b) = some a := by
  induction a with
  | nil => simp [quoteSpan, hq]
  | cons c cs ih =>
    obtain ⟨h1, h2, h3⟩ := ha c (List.mem_cons_self c cs)
    rw [List.cons_append]
    unfold quoteSpan
    rw [if_neg (fun h => h.elim h1 h2), if_neg h3,
      ih fun x hx => ha x (List.mem_cons_of_mem c hx)]
    rfl

/-! ## String facts -/

theorem data_append (s t : String) : (s ++ t).data = s.data ++ t.data := rfl

theorem mk_data (l : List Char) : (⟨l⟩ : String).data = l := rfl

theorem str_ext {s t : String} (h : s.data = t.data) : s = t := by
  cases s; cases t; exact congrArg String.mk h

theorem mk_data_self (s : String) : (⟨s.data⟩ : String) = s := by cases s; rfl

theorem strAssoc (a b c : String) : a ++ b ++ c = a ++ (b ++ c) :=
  str_ext (by simp [data_append])

theorem append_empty_str (s : String) : s ++ "" = s :=
  str_ext (by simp [data_append])

theorem pyStrip_ws_ident_ws (w1 run w2 : List Char)
    (hw1 : ∀ c ∈ w1, pyWS c = true) (hw2 : ∀ c ∈ w2, pyWS c = true)
    (hrne : run ≠ []) (hr : ∀ c ∈ run, identChar c = true) :
    pyStrip ⟨w1 ++ run ++ w2⟩ = ⟨run⟩ := by
  unfold pyStrip
  rw [mk_data, List.append_assoc, dropWhile_append_all hw1]
  obtain ⟨a, run', rfl⟩ : ∃ a r, run = a :: r := by
    cases run with
    | nil => exact absurd rfl hrne
    | cons a r => exact ⟨a, r, rfl⟩
  rw [List.cons_append,
    List.dropWhile_cons_of_neg
      (by simp [identChar_not_ws (hr a (List.mem_cons_self _ _))]),
    ← List.cons_append, rstripBy_append_all hw2,
    rstripBy_of_all_neg (fun c hc => identChar_not_ws (hr c hc))]

theorem pyStrip_ne_empty_of_mem {s : String} {c : Char}
    (hc : c ∈ s.data) (hp : pyWS c = false) : pyStrip s ≠ "" := by
  intro h
  have h2 : c ∈ (pyStrip s).data :=
    mem_rstripBy_of_mem (mem_dropWhile_of_mem hc hp) hp
  rw [h] at h2
  cases h2

theorem pyStrip_ne_disclaimer {s : String} {c : Char} {t : List Char}
    (hs : s.data = c :: t) (hws : pyWS c = false) (hh : c ≠ '#') :
    pyStrip s ≠ HEADER_DISCLAIMER := by
  unfold pyStrip
  rw [hs, List.dropWhile_cons_of_neg (by simp [hws])]
  obtain ⟨b, hb⟩ := rstripBy_cons_head t hws
  rw [hb]
  intro hEq
  have h2 : c :: b = HEADER_DISCLAIMER.data := congrArg String.data hEq
  have h3 := congrArg List.head? h2
  rw [show HEADER_DISCLAIMER.data.head? = some '#' from rfl] at h3
  exact hh (Option.some.inj h3)

theorem endsEnc_append (a : List Char) : EndsEnc ⟨a ++ "_ENCRYPTED".data⟩ := by
  unfold EndsEnc
  rw [mk_data, List.length_append,
    show ("_ENCRYPTED".data).length = 10 from rfl, Nat.add_sub_cancel]
  exact List.drop_left' rfl

theorem ne_MKE_of_endsEnc {s : String} (h : EndsEnc s) : s ≠ "MASTER_KEY_ENV" := by
  rintro rfl
  exact absurd h (by decide)

theorem dropLast10_append (a : List Char) :
    dropLast10 ⟨a ++ "_ENCRYPTED".data⟩ = ⟨a⟩ := by
  unfold dropLast10
  rw [mk_data, List.length_append,
    show ("_ENCRYPTED".data).length = 10 from rfl, Nat.add_sub_cancel]
  exact congrArg _ (List.take_left' rfl)

theorem startsHash_append_left {s t : String} (h : s.data ≠ []) :
    startsHash (s ++ t) = startsHash s := by
  unfold startsHash
  rw [data_append]
  cases hs : s.data with
  | nil => exact absurd hs h
  | cons c cs => rfl

theorem startsHash_ident_append {n : String} (t : String) (h : IdentStr n) :
    startsHash (n ++ t) = false := by
  obtain ⟨hne, _, hh⟩ := h
  unfold startsHash
  rw [data_append]
  cases hs : n.data with
  | nil => exact absurd hs hne
  | cons c cs =>
    rw [hs] at hh
    simp only [List.headI] at hh
    simp [identStart_ne_hash hh]

theorem data_ne_nil_left {s : String} (t : String) (h : s.data ≠ []) :
    (s ++ t).data ≠ [] := by
  rw [data_append]
  intro he
  exact h (List.append_eq_nil.mp he).1

theorem identStr_cons {n : String} (h : IdentStr n) :
    ∃ a t, n.data = a :: t ∧ identStart a = true ∧ identChar a = true ∧
      ∀ c ∈ t, identChar c = true := by
  obtain ⟨hne, hall, hh⟩ := h
  cases hd : n.data with
  | nil => exact absurd hd hne
  | cons a t =>
    rw [hd] at hh
    simp only [List.headI] at hh
    refine ⟨a, t, rfl, hh, identStart_to_char hh, fun c hc => hall c ?_⟩
    rw [hd]
    exact List.mem_cons_of_mem a hc

theorem enc_suffix_ident : ∀ c ∈ ("_ENCRYPTED" : String).data, identChar c = true := by
  decide

theorem rstripBy_append_singleton {p : Char → Bool} {a : List Char} {c : Char}
    (hc : p c = false) : rstripBy p (a ++ [c]) = a ++ [c] := by
  unfold rstripBy
  rw [List.reverse_append, show ([c] : List Char).reverse = [c] from rfl,
    List.cons_append, List.dropWhile_cons_of_neg (by simp [hc])]
  simp

theorem rstripBy_ident {l : List Char} (h : ∀ c ∈ l, identChar c = true) :
    rstripBy pyWS l = l :=
  rstripBy_of_all_neg fun c hc => identChar_not_ws (h c hc)

theorem pyStrip_ident_space {n : String} (h : IdentStr n) :
    pyStrip ⟨n.data ++ [' ']⟩ = n := by
  have h2 := pyStrip_ws_ident_ws [] n.data [' ']
    (by intro c hc; cases hc) (by intro c hc; simp at hc; subst hc; decide) h.1 h.2.1
  rw [List.nil_append] at h2
  rw [h2, mk_data_self]

theorem pyStrip_ident_enc_space {n : String} (h : IdentStr n) :
    pyStrip ⟨(n.data ++ ("_ENCRYPTED" : String).data) ++ [' ']⟩
      = ⟨n.data ++ ("_ENCRYPTED" : String).data⟩ := by
  have hall : ∀ c ∈ n.data ++ ("_ENCRYPTED" : String).data, identChar c = true := by
    intro c hc
    rcases List.mem_append.mp hc with hc | hc
    · exact h.2.1 c hc
    · exact enc_suffix_ident c hc
  have h2 := pyStrip_ws_ident_ws [] (n.data ++ ("_ENCRYPTED" : String).data) [' ']
    (by intro c hc; cases hc) (by intro c hc; simp at hc; subst hc; decide)
    (data_ne_nil_left (s := n) "_ENCRYPTED" h.1) hall
  rw [List.nil_append] at h2
  exact h2

theorem sv_compute {v : String} (hv : v.data ≠ []) (hq : ∀ c ∈ v.data, c ≠ '"') :
    stripQuotes (pyStrip ⟨' ' :: '"' :: (v.data ++ '"' :: '\n' :: [])⟩) = v := by
  have h1 : pyStrip ⟨' ' :: '"' :: (v.data ++ '"' :: '\n' :: [])⟩
      = ⟨'"' :: (v.data ++ ['"'])⟩ := by
    unfold pyStrip
    rw [mk_data, List.dropWhile_cons_of_pos (by decide),
      List.dropWhile_cons_of_neg (by decide),
      show '"' :: (v.data ++ '"' :: '\n' :: []) = ('"' :: v.data ++ ['"']) ++ ['\n'] by simp,
      rstripBy_append_all (by intro c hc; simp at hc; subst hc; decide),
      rstripBy_append_singleton (by decide)]
    simp
  rw [h1]
  unfold stripQuotes
  rw [mk_data, List.dropWhile_cons_of_pos (by decide)]
  obtain ⟨a, t, hd⟩ : ∃ a t, v.data = a :: t := by
    cases hvd : v.data with
    | nil => exact absurd hvd hv
    | cons a t => exact ⟨a, t, rfl⟩
  have ha : (a == '"') = false := by
    simp only [beq_eq_false_iff_ne, ne_eq]
    exact hq a (by rw [hd]; exact List.mem_cons_self _ _)
  rw [hd, List.cons_append, List.dropWhile_cons_of_neg (by simp [ha]), ← List.cons_append,
    ← hd, rstripBy_append_all (by intro c hc; simp at hc; subst hc; decide)]
  conv_lhs => rw [← List.dropLast_append_getLast hv]
  rw [rstripBy_append_singleton (p := fun c => c == '"')
      (by simp only [beq_eq_false_iff_ne, ne_eq]; exact hq _ (List.getLast_mem hv)),
    List.dropLast_append_getLast hv, mk_data_self]

/-! ## Shape computations: `encLineFull` on the lines the program writes -/

theorem encLineFull_hash {s : String} (h : startsHash s = true) : encLineFull s = none := by
  unfold startsHash at h
  cases hd : s.data with
  | nil => rw [hd] at h; cases h
  | cons c t =>
    rw [hd] at h
    have hc : c = '#' := by simpa using h
    subst hc
    unfold encLineFull
    rw [hd, List.dropWhile_cons_of_neg (by decide)]
    simp only []
    rw [if_neg (by decide)]

theorem encLineFull_assign {n : String} (v : String) (hn : IdentStr n)
    (hEnc : ¬ EndsEnc n) : encLineFull (n ++ " = \"" ++ v ++ "\"\n") = none := by
  obtain ⟨a, t, hd, hsa, hca, hta⟩ := identStr_cons hn
  have hat : ∀ c ∈ a :: t, identChar c = true := by
    intro c hc
    rcases List.mem_cons.mp hc with rfl | hc
    exacts [hca, hta c hc]
  have hdata : (n ++ " = \"" ++ v ++ "\"\n").data
      = a :: (t ++ ' ' :: ('=' :: ' ' :: '"' :: (v.data ++ '"' :: '\n' :: []))) := by
    have e0 : (" = \"" : String).data = ' ' :: '=' :: ' ' :: '"' :: [] := rfl
    have e1 : ("\"\n" : String).data = '"' :: '\n' :: [] := rfl
    rw [data_append, data_append, data_append, e0, e1, hd]
    simp [List.append_assoc]
  have hrun : (a :: (t ++ ' ' :: ('=' :: ' ' :: '"' :: (v.data ++ '"' :: '\n' :: [])))).takeWhile identChar
      = n.data := by
    have hshape : a :: (t ++ ' ' :: ('=' :: ' ' :: '"' :: (v.data ++ '"' :: '\n' :: [])))
        = (a :: t) ++ ' ' :: ('=' :: ' ' :: '"' :: (v.data ++ '"' :: '\n' :: [])) := rfl
    rw [hshape, ident_take hat (by decide), hd]
  unfold encLineFull
  rw [hdata, List.dropWhile_cons_of_neg (by simp [identChar_not_ws hca])]
  simp only []
  rw [if_pos hsa, hrun,
    if_neg (fun hh => hEnc (by rw [mk_data_self n] at hh; exact hh.1))]

theorem encLineFull_meta {n : String} (t : String) (hn : IdentStr n) :
    encLineFull (n ++ ("_ENCRYPTED = \"" ++ t)) = some (n ++ "_ENCRYPTED") := by
  obtain ⟨a, tl, hd, hsa, hca, hta⟩ := identStr_cons hn
  have hdata : (n ++ ("_ENCRYPTED = \"" ++ t)).data
      = a :: ((tl ++ ("_ENCRYPTED" : String).data) ++ ' ' :: ('=' :: ' ' :: '"' :: t.data)) := by
    have e0 : ("_ENCRYPTED = \"" : String).data
        = ("_ENCRYPTED" : String).data ++ ' ' :: '=' :: ' ' :: '"' :: [] := rfl
    rw [data_append, data_append, e0, hd]
    simp [List.append_assoc]
  have hallrun : ∀ c ∈ (a :: tl) ++ ("_ENCRYPTED" : String).data, identChar c = true := by
    intro c hc
    rcases List.mem_append.mp hc with hc | hc
    · rcases List.mem_cons.mp hc with rfl | hc
      exacts [hca, hta c hc]
    · exact enc_suffix_ident c hc
  unfold encLineFull
  rw [hdata, List.dropWhile_cons_of_neg (by simp [identChar_not_ws hca])]
  simp only []
  rw [if_pos hsa]
  have hshape : a :: ((tl ++ ("_ENCRYPTED" : String).data) ++ ' ' :: ('=' :: ' ' :: '"' :: t.data))
      = ((a :: tl) ++ ("_ENCRYPTED" : String).data) ++ ' ' :: ('=' :: ' ' :: '"' :: t.data) := by
    simp
  have hrun : (a :: ((tl ++ ("_ENCRYPTED" : String).data) ++ ' ' :: ('=' :: ' ' :: '"' :: t.data))).takeWhile identChar
      = (a :: tl) ++ ("_ENCRYPTED" : String).data := by
    rw [hshape, ident_take hallrun (by decide)]
  have hdw : (a :: ((tl ++ ("_ENCRYPTED" : String).data) ++ ' ' :: ('=' :: ' ' :: '"' :: t.data))).dropWhile identChar
      = ' ' :: ('=' :: ' ' :: '"' :: t.data) := by
    rw [hshape, ident_drop hallrun (by decide)]
  rw [hrun]
  have hee : EndsEnc ⟨(a :: tl) ++ ("_ENCRYPTED" : String).data⟩ := by
    rw [← hd]
    exact endsEnc_append n.data
  have hlen : 11 ≤ ((a :: tl) ++ ("_ENCRYPTED" : String).data).length := by
    rw [List.length_append]
    have h1 : 1 ≤ (a :: tl).length := by simp
    have h2 : ("_ENCRYPTED" : String).data.length = 10 := rfl
    omega
  rw [if_pos ⟨hee, hlen⟩, hdw, List.dropWhile_cons_of_pos (by decide),
    List.dropWhile_cons_of_neg (by decide)]
  simp only []
  congr 1
  apply str_ext
  rw [mk_data, data_append, hd]

/-! ## Shape computations: `encStep` on the lines the program writes -/

theorem encStep_mke (x : Ext) (mke : String) (mk : Option String) (seen : List String)
    (v : String) :
    encStep x mke mk seen ("MASTER_KEY_ENV = \"" ++ v ++ "\"\n")
      = some (0, ["MASTER_KEY_ENV = \"" ++ v ++ "\"\n"]) := by
  have hdata : ("MASTER_KEY_ENV = \"" ++ v ++ "\"\n").data
      = ("MASTER_KEY_ENV " : String).data ++ '=' :: (' ' :: '"' :: (v.data ++ '"' :: '\n' :: [])) := by
    have e0 : ("MASTER_KEY_ENV = \"" : String).data
        = ("MASTER_KEY_ENV " : String).data ++ '=' :: ' ' :: '"' :: [] := rfl
    have e1 : ("\"\n" : String).data = '"' :: '\n' :: [] := rfl
    rw [data_append, data_append, e0, e1]
    simp [List.append_assoc]
  have hsh : startsHash ("MASTER_KEY_ENV = \"" ++ v ++ "\"\n") = false := by
    rw [startsHash_append_left (data_ne_nil_left _ (by decide)),
      startsHash_append_left (by decide)]
    decide
  have hne : pyStrip ("MASTER_KEY_ENV = \"" ++ v ++ "\"\n") ≠ "" :=
    pyStrip_ne_empty_of_mem (c := '=')
      (by rw [hdata]; exact List.mem_append_right _ (List.mem_cons_self _ _)) (by decide)
  have hsp : splitFirstEq ("MASTER_KEY_ENV = \"" ++ v ++ "\"\n").data
      = some (("MASTER_KEY_ENV " : String).data, ' ' :: '"' :: (v.data ++ '"' :: '\n' :: [])) := by
    rw [hdata]
    exact splitFirstEq_append (by decide)
  have hsn : pyStrip ⟨("MASTER_KEY_ENV " : String).data⟩ = "MASTER_KEY_ENV" := by decide
  unfold encStep
  rw [if_neg (by simp [hsh, hne]), hsp]
  simp only []
  rw [if_pos hsn]

theorem encStep_assign_new (x : Ext) (mke : String) (mk : Option String)
    (seen : List String) {n v ct : String} (hn : IdentStr n) (hEnc : ¬ EndsEnc n)
    (hMKE : n ≠ "MASTER_KEY_ENV") (hseen : n ∉ seen) (hv : v.data ≠ [])
    (hq : ∀ c ∈ v.data, c ≠ '"') (henc : x.encv v mk = some ct) :
    encStep x mke mk seen (n ++ " = \"" ++ v ++ "\"\n") = some (1, encChunk x mke mk n ct) := by
  have hdata : (n ++ " = \"" ++ v ++ "\"\n").data
      = (n.data ++ [' ']) ++ '=' :: (' ' :: '"' :: (v.data ++ '"' :: '\n' :: [])) := by
    have e0 : (" = \"" : String).data = ' ' :: '=' :: ' ' :: '"' :: [] := rfl
    have e1 : ("\"\n" : String).data = '"' :: '\n' :: [] := rfl
    rw [data_append, data_append, data_append, e0, e1]
    simp [List.append_assoc]
  have hsh : startsHash (n ++ " = \"" ++ v ++ "\"\n") = false := by
    rw [strAssoc, strAssoc]
    exact startsHash_ident_append _ hn
  have hne : pyStrip (n ++ " = \"" ++ v ++ "\"\n") ≠ "" :=
    pyStrip_ne_empty_of_mem (c := '=')
      (by rw [hdata]; exact List.mem_append_right _ (List.mem_cons_self _ _)) (by decide)
  have hsp : splitFirstEq (n ++ " = \"" ++ v ++ "\"\n").data
      = some (n.data ++ [' '], ' ' :: '"' :: (v.data ++ '"' :: '\n' :: [])) := by
    rw [hdata]
    refine splitFirstEq_append ?_
    intro hm
    rcases List.mem_append.mp hm with hm | hm
    · exact (identChar_ne (hn.2.1 _ hm)).1 rfl
    · simp at hm
  have hsn : pyStrip ⟨n.data ++ [' ']⟩ = n := pyStrip_ident_space hn
  have hsv : stripQuotes (pyStrip ⟨' ' :: '"' :: (v.data ++ '"' :: '\n' :: [])⟩) = v :=
    sv_compute hv hq
  unfold encStep
  rw [if_neg (by simp [hsh, hne]), hsp]
  simp only []
  rw [hsn, hsv, if_neg hMKE, if_neg hEnc, if_neg hseen, henc]

theorem encStep_already_empty (x : Ext) (mke : String) (mk : Option String)
    (seen : List String) {n : String} (hn : IdentStr n) (hEnc : ¬ EndsEnc n)
    (hMKE : n ≠ "MASTER_KEY_ENV") (hseen : n ∈ seen) :
    encStep x mke mk seen (n ++ " = \"\"\n") = some (0, [n ++ " = \"\"\n"]) := by
  have hdata : (n ++ " = \"\"\n").data
      = (n.data ++ [' ']) ++ '=' :: (' ' :: '"' :: '"' :: '\n' :: []) := by
    have e0 : (" = \"\"\n" : String).data = ' ' :: '=' :: ' ' :: '"' :: '"' :: '\n' :: [] := rfl
    rw [data_append, e0]
    simp [List.append_assoc]
  have hsh : startsHash (n ++ " = \"\"\n") = false := startsHash_ident_append _ hn
  have hne : pyStrip (n ++ " = \"\"\n") ≠ "" :=
    pyStrip_ne_empty_of_mem (c := '=')
      (by rw [hdata]; exact List.mem_append_right _ (List.mem_cons_self _ _)) (by decide)
  have hsp : splitFirstEq (n ++ " = \"\"\n").data
      = some (n.data ++ [' '], ' ' :: '"' :: '"' :: '\n' :: []) := by
    rw [hdata]
    refine splitFirstEq_append ?_
    intro hm
    rcases List.mem_append.mp hm with hm | hm
    · exact (identChar_ne (hn.2.1 _ hm)).1 rfl
    · simp at hm
  have hsn : pyStrip ⟨n.data ++ [' ']⟩ = n := pyStrip_ident_space hn
  unfold encStep
  rw [if_neg (by simp [hsh, hne]), hsp]
  simp only []
  rw [hsn, if_neg hMKE, if_neg hEnc, if_pos hseen]

theorem encStep_metaline (x : Ext) (mke : String) (mk : Option String)
    (seen : List String) {n : String} (t : String) (hn : IdentStr n) :
    encStep x mke mk seen (n ++ ("_ENCRYPTED = \"" ++ t))
      = some (0, [n ++ ("_ENCRYPTED = \"" ++ t)]) := by
  have hdata : (n ++ ("_ENCRYPTED = \"" ++ t)).data
      = ((n.data ++ ("_ENCRYPTED" : String).data) ++ [' ']) ++ '=' :: (' ' :: '"' :: t.data) := by
    have e0 : ("_ENCRYPTED = \"" : String).data
        = ("_ENCRYPTED" : String).data ++ ' ' :: '=' :: ' ' :: '"' :: [] := rfl
    rw [data_append, data_append, e0]
    simp [List.append_assoc]
  have hsh : startsHash (n ++ ("_ENCRYPTED = \"" ++ t)) = false :=
    startsHash_ident_append _ hn
  have hne : pyStrip (n ++ ("_ENCRYPTED = \"" ++ t)) ≠ "" :=
    pyStrip_ne_empty_of_mem (c := '=')
      (by rw [hdata]; exact List.mem_append_right _ (List.mem_cons_self _ _)) (by decide)
  have hsp : splitFirstEq (n ++ ("_ENCRYPTED = \"" ++ t)).data
      = some ((n.data ++ ("_ENCRYPTED" : String).data) ++ [' '], ' ' :: '"' :: t.data) := by
    rw [hdata]
    refine splitFirstEq_append ?_
    intro hm
    rcases List.mem_append.mp hm with hm | hm
    · rcases List.mem_append.mp hm with hm | hm
      · exact (identChar_ne (hn.2.1 _ hm)).1 rfl
      · revert hm; decide
    · simp at hm
  have hsn : pyStrip ⟨(n.data ++ ("_ENCRYPTED" : String).data) ++ [' ']⟩
      = ⟨n.data ++ ("_ENCRYPTED" : String).data⟩ := pyStrip_ident_enc_space hn
  have hee : EndsEnc ⟨n.data ++ ("_ENCRYPTED" : String).data⟩ := endsEnc_append n.data
  unfold encStep
  rw [if_neg (by simp [hsh, hne]), hsp]
  simp only []
  rw [hsn, if_neg (ne_MKE_of_endsEnc hee), if_pos hee]

/-! ## Shape computations: `searchSecret` and `decStep` -/

theorem searchSecret_of_head {c : Char} {cs : List Char} {r : String × String}
    (h : matchSecretAt (c :: cs) = some r) : searchSecret (c :: cs) = some r := by
  unfold searchSecret
  rw [h]

theorem matchSecretAt_assign (run v rest : List Char)
    (hrne : run ≠ []) (hstart : identStart run.headI = true)
    (hall : ∀ c ∈ run, identChar c = true)
    (hv : ∀ c ∈ v, c ≠ '"' ∧ c ≠ '\'' ∧ c ≠ '\n') :
    matchSecretAt (run ++ ' ' :: '=' :: ' ' :: '"' :: (v ++ '"' :: rest))
      = some (⟨run⟩, ⟨v⟩) := by
  obtain ⟨a, t, rfl⟩ : ∃ a t, run = a :: t := by
    cases run with
    | nil => exact absurd rfl hrne
    | cons a t => exact ⟨a, t, rfl⟩
  simp only [List.headI] at hstart
  have hcons : (a :: t) ++ ' ' :: '=' :: ' ' :: '"' :: (v ++ '"' :: rest)
      = a :: (t ++ ' ' :: '=' :: ' ' :: '"' :: (v ++ '"' :: rest)) := rfl
  rw [hcons]
  unfold matchSecretAt
  simp only []
  rw [if_pos hstart]
  rw [← hcons, ident_take hall (by decide), ident_drop hall (by decide),
    List.dropWhile_cons_of_pos (by decide), List.dropWhile_cons_of_neg (by decide)]
  simp only []
  rw [List.dropWhile_cons_of_pos (by decide), List.dropWhile_cons_of_neg (by decide)]
  simp only []
  rw [if_pos (Or.inl trivial), quoteSpan_append (Or.inl rfl) hv]
  rfl

theorem decStep_mke (decv : String → String → String) (k : String) (F : List String)
    (v : String) (hv : ∀ c ∈ v.data, c ≠ '"' ∧ c ≠ '\'' ∧ c ≠ '\n') :
    decStep decv k F ("MASTER_KEY_ENV = \"" ++ v ++ "\"\n")
      = ["MASTER_KEY_ENV = \"" ++ v ++ "\"\n"] := by
  have hdata : ("MASTER_KEY_ENV = \"" ++ v ++ "\"\n").data
      = ("MASTER_KEY_ENV" : String).data ++ ' ' :: '=' :: ' ' :: '"' :: (v.data ++ '"' :: '\n' :: []) := by
    have e0 : ("MASTER_KEY_ENV = \"" : String).data
        = ("MASTER_KEY_ENV" : String).data ++ ' ' :: '=' :: ' ' :: '"' :: [] := rfl
    have e1 : ("\"\n" : String).data = '"' :: '\n' :: [] := rfl
    rw [data_append, data_append, e0, e1]
    simp [List.append_assoc]
  have hms : matchSecretAt (("MASTER_KEY_ENV" : String).data ++ ' ' :: '=' :: ' ' :: '"' :: (v.data ++ '"' :: '\n' :: []))
      = some ("MASTER_KEY_ENV", v) := by
    have h2 := matchSecretAt_assign ("MASTER_KEY_ENV" : String).data v.data ('\n' :: [])
      (by decide) (by decide) (by decide) hv
    rw [h2, mk_data_self, mk_data_self]
  have hss : searchSecret ("MASTER_KEY_ENV = \"" ++ v ++ "\"\n").data
      = some ("MASTER_KEY_ENV", v) := by
    rw [hdata,
      show ("MASTER_KEY_ENV" : String).data ++ ' ' :: '=' :: ' ' :: '"' :: (v.data ++ '"' :: '\n' :: [])
        = 'M' :: (("ASTER_KEY_ENV" : String).data ++ ' ' :: '=' :: ' ' :: '"' :: (v.data ++ '"' :: '\n' :: [])) from rfl]
    exact searchSecret_of_head (by
      rw [show 'M' :: (("ASTER_KEY_ENV" : String).data ++ ' ' :: '=' :: ' ' :: '"' :: (v.data ++ '"' :: '\n' :: []))
        = ("MASTER_KEY_ENV" : String).data ++ ' ' :: '=' :: ' ' :: '"' :: (v.data ++ '"' :: '\n' :: []) from rfl]
      exact hms)
  have hsh : startsHash ("MASTER_KEY_ENV = \"" ++ v ++ "\"\n") = false := by
    rw [startsHash_append_left (data_ne_nil_left _ (by decide)),
      startsHash_append_left (by decide)]
    decide
  have hne : pyStrip ("MASTER_KEY_ENV = \"" ++ v ++ "\"\n") ≠ "" :=
    pyStrip_ne_empty_of_mem (c := '=')
      (by rw [hdata]; exact List.mem_append_right _ (List.mem_cons_of_mem _ (List.mem_cons_self _ _)))
      (by decide)
  unfold decStep
  rw [if_neg (by simp [hsh, hne]), hss]
  simp

theorem decStep_skip (decv : String → String → String) (k : String) (F : List String)
    {n : String} (hn : IdentStr n) (hMKE : n ≠ "MASTER_KEY_ENV") (hEnc : ¬ EndsEnc n)
    (hmem : (n ++ "_ENCRYPTED") ∈ F) :
    decStep decv k F (n ++ " = \"\"\n") = [] := by
  obtain ⟨a, t, hd, hsa, hca, hta⟩ := identStr_cons hn
  have hdata : (n ++ " = \"\"\n").data
      = n.data ++ ' ' :: '=' :: ' ' :: '"' :: (([] : List Char) ++ '"' :: '\n' :: []) := by
    have e0 : (" = \"\"\n" : String).data = ' ' :: '=' :: ' ' :: '"' :: '"' :: '\n' :: [] := rfl
    rw [data_append, e0]
    simp
  have hms : matchSecretAt (n.data ++ ' ' :: '=' :: ' ' :: '"' :: (([] : List Char) ++ '"' :: '\n' :: []))
      = some (n, "") := by
    have h2 := matchSecretAt_assign n.data ([] : List Char) ('\n' :: []) hn.1 hn.2.2 hn.2.1
      (by intro c hc; cases hc)
    rw [h2, mk_data_self]
  have hss : searchSecret (n ++ " = \"\"\n").data = some (n, "") := by
    rw [hdata, hd, List.cons_append]
    refine searchSecret_of_head ?_
    rw [← List.cons_append, ← hd]
    exact hms
  have hsh : startsHash (n ++ " = \"\"\n") = false := startsHash_ident_append _ hn
  have hne : pyStrip (n ++ " = \"\"\n") ≠ "" :=
    pyStrip_ne_empty_of_mem (c := '=')
      (by rw [hdata]; exact List.mem_append_right _ (List.mem_cons_of_mem _ (List.mem_cons_self _ _)))
      (by decide)
  unfold decStep
  rw [if_neg (by simp [hsh, hne]), hss]
  simp only []
  rw [if_neg hMKE, if_neg (fun h => h.2 hmem), if_neg hEnc]

theorem decStep_meta (decv : String → String → String) (k : String) (F : List String)
    {n : String} (ct tail : String) (hn : IdentStr n)
    (hct : ∀ c ∈ ct.data, c ≠ '"' ∧ c ≠ '\'' ∧ c ≠ '\n') :
    decStep decv k F (n ++ ("_ENCRYPTED = \"" ++ (ct ++ ("\"    #" ++ tail))))
      = [n ++ " = \"" ++ decv ct k ++ "\"\n"] := by
  obtain ⟨a, t, hd, hsa, hca, hta⟩ := identStr_cons hn
  have hallrun : ∀ c ∈ n.data ++ ("_ENCRYPTED" : String).data, identChar c = true := by
    intro c hc
    rcases List.mem_append.mp hc with hc | hc
    · exact hn.2.1 c hc
    · exact enc_suffix_ident c hc
  have hdata : (n ++ ("_ENCRYPTED = \"" ++ (ct ++ ("\"    #" ++ tail)))).data
      = (n.data ++ ("_ENCRYPTED" : String).data)
          ++ ' ' :: '=' :: ' ' :: '"' :: (ct.data ++ '"' :: (' ' :: ' ' :: ' ' :: ' ' :: '#' :: tail.data)) := by
    have e0 : ("_ENCRYPTED = \"" : String).data
        = ("_ENCRYPTED" : String).data ++ ' ' :: '=' :: ' ' :: '"' :: [] := rfl
    have e1 : ("\"    #" : String).data = '"' :: ' ' :: ' ' :: ' ' :: ' ' :: '#' :: [] := rfl
    rw [data_append, data_append, data_append, data_append, e0, e1]
    simp [List.append_assoc]
  have hms : matchSecretAt ((n.data ++ ("_ENCRYPTED" : String).data)
        ++ ' ' :: '=' :: ' ' :: '"' :: (ct.data ++ '"' :: (' ' :: ' ' :: ' ' :: ' ' :: '#' :: tail.data)))
      = some (⟨n.data ++ ("_ENCRYPTED" : String).data⟩, ct) := by
    have hh : (n.data ++ ("_ENCRYPTED" : String).data).headI = a := by
      rw [hd]
      rfl
    have hrne2 : n.data ++ ("_ENCRYPTED" : String).data ≠ [] := by
      intro h
      exact hn.1 (List.append_eq_nil.mp h).1
    have h2 := matchSecretAt_assign (n.data ++ ("_ENCRYPTED" : String).data) ct.data (' ' :: ' ' :: ' ' :: ' ' :: '#' :: tail.data)
      hrne2 (by rw [hh]; exact hsa) hallrun hct
    rw [h2, mk_data_self]
  have hss : searchSecret (n ++ ("_ENCRYPTED = \"" ++ (ct ++ ("\"    #" ++ tail)))).data
      = some (⟨n.data ++ ("_ENCRYPTED" : String).data⟩, ct) := by
    rw [hdata, hd, List.cons_append, List.cons_append]
    refine searchSecret_of_head ?_
    rw [← List.cons_append, ← List.cons_append, ← hd]
    exact hms
  have hee : EndsEnc ⟨n.data ++ ("_ENCRYPTED" : String).data⟩ := endsEnc_append n.data
  have hsh : startsHash (n ++ ("_ENCRYPTED = \"" ++ (ct ++ ("\"    #" ++ tail)))) = false :=
    startsHash_ident_append _ hn
  have hne : pyStrip (n ++ ("_ENCRYPTED = \"" ++ (ct ++ ("\"    #" ++ tail)))) ≠ "" :=
    pyStrip_ne_empty_of_mem (c := '=')
      (by rw [hdata]; exact List.mem_append_right _ (List.mem_cons_of_mem _ (List.mem_cons_self _ _)))
      (by decide)
  unfold decStep
  rw [if_neg (by simp [hsh, hne]), hss]
  simp only []
  rw [if_neg (ne_MKE_of_endsEnc hee), if_neg (fun h => h.1 hee), if_pos hee,
    dropLast10_append, mk_data_self]

/-! ## Loop-level lemmas for `encrypt_secrets` -/

theorem encChunk_eq (x : Ext) (mke : String) (mk : Option String) (n ct : String) :
    encChunk x mke mk n ct
      = [n ++ " = \"\"\n",
         n ++ ("_ENCRYPTED = \"" ++ (ct ++ ("\"    #" ++ (mke ++ ("," ++
           (takeLast8 (signatureOf x mk) ++ ("," ++ (x.now ++ "\n"))))))))] := by
  unfold encChunk
  simp only [strAssoc]

theorem encLineFull_assign_empty {n : String} (hn : IdentStr n) (hEnc : ¬ EndsEnc n) :
    encLineFull (n ++ " = \"\"\n") = none := by
  obtain ⟨a, t, hd, hsa, hca, hta⟩ := identStr_cons hn
  have hat : ∀ c ∈ a :: t, identChar c = true := by
    intro c hc
    rcases List.mem_cons.mp hc with rfl | hc
    exacts [hca, hta c hc]
  have hdata : (n ++ " = \"\"\n").data
      = a :: (t ++ ' ' :: ('=' :: ' ' :: '"' :: '"' :: '\n' :: [])) := by
    have e0 : (" = \"\"\n" : String).data = ' ' :: '=' :: ' ' :: '"' :: '"' :: '\n' :: [] := rfl
    rw [data_append, e0, hd]
    simp
  have hrun : (a :: (t ++ ' ' :: ('=' :: ' ' :: '"' :: '"' :: '\n' :: []))).takeWhile identChar
      = n.data := by
    have hshape : a :: (t ++ ' ' :: ('=' :: ' ' :: '"' :: '"' :: '\n' :: []))
        = (a :: t) ++ ' ' :: ('=' :: ' ' :: '"' :: '"' :: '\n' :: []) := rfl
    rw [hshape, ident_take hat (by decide), hd]
  unfold encLineFull
  rw [hdata, List.dropWhile_cons_of_neg (by simp [identChar_not_ws hca])]
  simp only []
  rw [if_pos hsa, hrun,
    if_neg (fun hh => hEnc (by rw [mk_data_self n] at hh; exact hh.1))]

theorem encStep_of_strip_disclaimer {x : Ext} {mke : String} {mk : Option String}
    {seen : List String} {l : String} (hd : pyStrip l = HEADER_DISCLAIMER) :
    encStep x mke mk seen l = some (0, [l]) := by
  by_cases hsh : startsHash l
  · unfold encStep
    rw [if_pos (Or.inl hsh)]
  · have hne : '=' ∉ l.data := by
      intro hm
      have h2 : '=' ∈ (pyStrip l).data :=
        mem_rstripBy_of_mem (mem_dropWhile_of_mem hm (by decide)) (by decide)
      rw [hd] at h2
      exact absurd h2 (by decide)
    unfold encStep
    rw [if_neg (by
      intro hor
      rcases hor with hor | hor
      · exact hsh hor
      · rw [hd] at hor; exact absurd hor (by decide)),
      splitFirstEq_of_not_mem hne]

theorem encLoop_fixpoint {x : Ext} {mke : String} {mk : Option String}
    {seen : List String} {lines : List String}
    (h : ∀ l ∈ lines, encStep x mke mk seen l = some (0, [l])) :
    encLoop x mke mk seen lines = (some 0, lines) := by
  induction lines with
  | nil => rfl
  | cons l rest ih =>
    unfold encLoop
    rw [h l (List.mem_cons_self _ _), ih fun a ha => h a (List.mem_cons_of_mem _ ha)]
    rfl

/-- When every line of `pre` is processed without raising and `line` raises,
the loop aborts there: the script exits with exactly the rewritten lines of
`pre` written, whatever they rewrote to. -/
theorem encLoop_abort_general {x : Ext} {mke : String} {mk : Option String}
    {seen : List String} {pre : List String} {line : String} (rest : List String)
    (hpre : ∀ l ∈ pre, encStep x mke mk seen l ≠ none)
    (hfail : encStep x mke mk seen line = none) :
    encLoop x mke mk seen (pre ++ line :: rest)
      = (none, (encLoop x mke mk seen pre).2) := by
  induction pre with
  | nil =>
    rw [List.nil_append]
    unfold encLoop
    rw [hfail]
  | cons p ps ih =>
    cases hstep : encStep x mke mk seen p with
    | none => exact absurd hstep (hpre p (List.mem_cons_self _ _))
    | some kc =>
      have h1 : encLoop x mke mk seen ((p :: ps) ++ line :: rest)
          = ((encLoop x mke mk seen (ps ++ line :: rest)).1.map (fun n => kc.1 + n),
             kc.2 ++ (encLoop x mke mk seen (ps ++ line :: rest)).2) := by
        rw [List.cons_append]
        show (match encStep x mke mk seen p with
          | none => ((none : Option Nat), ([] : List String))
          | some kc => ((encLoop x mke mk seen (ps ++ line :: rest)).1.map (fun n => kc.1 + n),
              kc.2 ++ (encLoop x mke mk seen (ps ++ line :: rest)).2)) = _
        rw [hstep]
      have h2 : encLoop x mke mk seen (p :: ps)
          = ((encLoop x mke mk seen ps).1.map (fun n => kc.1 + n),
             kc.2 ++ (encLoop x mke mk seen ps).2) := by
        show (match encStep x mke mk seen p with
          | none => ((none : Option Nat), ([] : List String))
          | some kc => ((encLoop x mke mk seen ps).1.map (fun n => kc.1 + n),
              kc.2 ++ (encLoop x mke mk seen ps).2)) = _
        rw [hstep]
      rw [h1, ih fun l hl => hpre l (List.mem_cons_of_mem _ hl), h2]
      rfl

theorem encLoop_chunks {x : Ext} {mke : String} {mk : Option String} {seen : List String} :
    ∀ {lines : List String} {c : Option Nat} {res : List String},
    encLoop x mke mk seen lines = (c, res) → ∀ l ∈ res, ∃ li ∈ lines, ∃ k ch,
      encStep x mke mk seen li = some (k, ch) ∧ l ∈ ch ∧ ch ⊆ res := by
  intro lines
  induction lines with
  | nil =>
    intro c res h l hl
    have h2 : ([] : List String) = res := congrArg Prod.snd h
    rw [← h2] at hl
    cases hl
  | cons li rest ih =>
    intro c res h l hl
    rw [show encLoop x mke mk seen (li :: rest)
        = match encStep x mke mk seen li with
          | none => (none, [])
          | some kc =>
            let r := encLoop x mke mk seen rest
            (r.1.map (fun n => kc.1 + n), kc.2 ++ r.2) from rfl] at h
    cases hstep : encStep x mke mk seen li with
    | none =>
      rw [hstep] at h
      have : res = [] := congrArg Prod.snd h.symm
      subst this
      cases hl
    | some kc =>
      rw [hstep] at h
      have hres : res = kc.2 ++ (encLoop x mke mk seen rest).2 := congrArg Prod.snd h.symm
      rcases List.mem_append.mp (hres ▸ hl) with hm1 | hm2
      · exact ⟨li, List.mem_cons_self _ _, kc.1, kc.2, hstep, hm1,
          by rw [hres]; exact List.subset_append_left _ _⟩
      · have hrest : encLoop x mke mk seen rest
            = ((encLoop x mke mk seen rest).1, (encLoop x mke mk seen rest).2) := rfl
        obtain ⟨li', hli', k, ch, hstep', hmem, hsub⟩ := ih hrest l hm2
        exact ⟨li', List.mem_cons_of_mem _ hli', k, ch, hstep', hmem,
          fun a ha => by rw [hres]; exact List.mem_append_right _ (hsub ha)⟩

theorem encLoop_chunk_sub {x : Ext} {mke : String} {mk : Option String} {seen : List String} :
    ∀ {lines : List String} {c : Nat} {res : List String},
    encLoop x mke mk seen lines = (some c, res) →
    ∀ li ∈ lines, ∀ k ch, encStep x mke mk seen li = some (k, ch) → ch ⊆ res := by
  intro lines
  induction lines with
  | nil =>
    intro c res h li hli
    cases hli
  | cons l0 rest ih =>
    intro c res h li hli k ch hstep
    rw [show encLoop x mke mk seen (l0 :: rest)
        = match encStep x mke mk seen l0 with
          | none => (none, [])
          | some kc =>
            let r := encLoop x mke mk seen rest
            (r.1.map (fun n => kc.1 + n), kc.2 ++ r.2) from rfl] at h
    cases hstep0 : encStep x mke mk seen l0 with
    | none =>
      rw [hstep0] at h
      have hc := congrArg Prod.fst h
      simp at hc
    | some kc =>
      rw [hstep0] at h
      have hres : kc.2 ++ (encLoop x mke mk seen rest).2 = res := congrArg Prod.snd h
      have hcnt : ((encLoop x mke mk seen rest).1).map (fun n => kc.1 + n) = some c :=
        congrArg Prod.fst h
      rcases List.mem_cons.mp hli with rfl | hli2
      · rw [hstep0] at hstep
        have hch : ch = kc.2 := congrArg Prod.snd (Option.some.inj hstep).symm
        subst hch
        rw [← hres]
        exact List.subset_append_left _ _
      · cases hc1 : (encLoop x mke mk seen rest).1 with
        | none => rw [hc1] at hcnt; cases hcnt
        | some c' =>
          have hrest : encLoop x mke mk seen rest
              = (some c', (encLoop x mke mk seen rest).2) := by
            rw [← hc1]
          have hsub := ih hrest li hli2 k ch hstep
          intro a ha
          rw [← hres]
          exact List.mem_append_right _ (hsub ha)

/-- A line matched by the `X_ENCRYPTED`-pattern is copied verbatim by
`encrypt_secrets` (its name ends in `_ENCRYPTED`). -/
theorem encStep_of_encLineFull {l f : String} (h : encLineFull l = some f)
    (x : Ext) (mke : String) (mk : Option String) (seen : List String) :
    encStep x mke mk seen l = some (0, [l]) := by
  unfold encLineFull at h
  cases hdw : l.data.dropWhile pyWS with
  | nil =>
    rw [hdw] at h
    cases h
  | cons c cs =>
    rw [hdw] at h
    simp only [] at h
    by_cases hst : identStart c = true
    case neg =>
      rw [if_neg hst] at h
      cases h
    rw [if_pos hst] at h
    by_cases hcond : EndsEnc ⟨(c :: cs).takeWhile identChar⟩
        ∧ 11 ≤ ((c :: cs).takeWhile identChar).length
    case neg =>
      rw [if_neg hcond] at h
      cases h
    rw [if_pos hcond] at h
    split at h
    case _ tail heq2 =>
      have hw : ∀ a ∈ l.data.takeWhile pyWS, pyWS a = true :=
        fun a ha => List.mem_takeWhile_imp ha
      have hallrun : ∀ a ∈ (c :: cs).takeWhile identChar, identChar a = true :=
        fun a ha => List.mem_takeWhile_imp ha
      have hwa : ∀ a ∈ ((c :: cs).dropWhile identChar).takeWhile pyWS, pyWS a = true :=
        fun a ha => List.mem_takeWhile_imp ha
      have hruncons : (c :: cs).takeWhile identChar = c :: cs.takeWhile identChar :=
        List.takeWhile_cons_of_pos (identStart_to_char hst)
      generalize hW : List.takeWhile pyWS l.data = W at hw
      generalize hR : List.takeWhile identChar (c :: cs) = R at hallrun hruncons hcond
      generalize hA : List.takeWhile pyWS (List.dropWhile identChar (c :: cs)) = A at hwa
      have hla : l.data = W ++ c :: cs := by
        conv_lhs => rw [← List.takeWhile_append_dropWhile pyWS l.data]
        rw [hdw, hW]
      have hca : (c :: cs : List Char) = R ++ (c :: cs).dropWhile identChar := by
        conv_lhs => rw [← List.takeWhile_append_dropWhile identChar (c :: cs)]
        rw [hR]
      have hcb : (c :: cs).dropWhile identChar = A ++ '=' :: tail := by
        conv_lhs => rw [← List.takeWhile_append_dropWhile pyWS ((c :: cs).dropWhile identChar)]
        rw [heq2, hA]
      have hfull : l.data = (W ++ R ++ A) ++ '=' :: tail := by
        rw [hla]
        conv_lhs => rw [hca, hcb]
        simp [List.append_assoc]
      have hRne : R ≠ [] := by
        rw [hruncons]
        simp
      have hsh : startsHash l = false := by
        unfold startsHash
        cases hwn : W with
        | nil =>
          rw [hla, hwn, List.nil_append]
          simp [identStart_ne_hash hst]
        | cons w0 ws =>
          rw [hla, hwn, List.cons_append]
          have hw0 : pyWS w0 = true := hw w0 (by rw [hwn]; exact List.mem_cons_self _ _)
          simp [(pyWS_ne hw0).1]
      have hmem : '=' ∈ l.data := by
        rw [hfull]
        exact List.mem_append_right _ (List.mem_cons_self _ _)
      have hne : pyStrip l ≠ "" := pyStrip_ne_empty_of_mem hmem (by decide)
      have hsp : splitFirstEq l.data = some (W ++ R ++ A, tail) := by
        rw [hfull]
        refine splitFirstEq_append ?_
        intro hm
        rcases List.mem_append.mp hm with hm | hm
        · rcases List.mem_append.mp hm with hm | hm
          · exact (pyWS_ne (hw _ hm)).2.1 rfl
          · exact (identChar_ne (hallrun _ hm)).1 rfl
        · exact (pyWS_ne (hwa _ hm)).2.1 rfl
      have hsn : pyStrip ⟨W ++ R ++ A⟩ = ⟨R⟩ :=
        pyStrip_ws_ident_ws W R A hw hwa hRne hallrun
      unfold encStep
      rw [if_neg (by simp [hsh, hne]), hsp]
      simp only []
      rw [hsn, if_neg (ne_MKE_of_endsEnc hcond.1), if_pos hcond.1]
    case _ =>
      cases h

/-- Whatever `encrypt_secrets` leaves on disk (also on an aborted pass over a
non-empty file) starts with a line that strips to the disclaimer. -/
theorem enc_content_head (x : Ext) (env : String → Option String) (lines : List String)
    (mke : String) (mkArg : Option String) (h : lines ≠ []) :
    ((encrypt_secrets x env lines mke mkArg).2.head?).map pyStrip
      = some HEADER_DISCLAIMER := by
  obtain ⟨l0, rest, rfl⟩ : ∃ a r, lines = a :: r := by
    cases lines with
    | nil => exact absurd rfl h
    | cons a r => exact ⟨a, r, rfl⟩
  show ((let mk := resolveKey env mke mkArg
    let seen := encBaseNames (l0 :: rest)
    let hdr : List String :=
      if pyStrip l0 = HEADER_DISCLAIMER then [] else [HEADER_DISCLAIMER ++ "\n"]
    let r := encLoop x mke mk seen (l0 :: rest)
    ((r.1, hdr ++ r.2) : Option Nat × List String)).2.head?).map pyStrip
    = some HEADER_DISCLAIMER
  by_cases hd : pyStrip l0 = HEADER_DISCLAIMER
  · simp only []
    rw [if_pos hd]
    have hstep : encStep x mke (resolveKey env mke mkArg) (encBaseNames (l0 :: rest)) l0
        = some (0, [l0]) := encStep_of_strip_disclaimer hd
    unfold encLoop
    rw [hstep]
    simp only [List.nil_append, List.cons_append, List.head?_cons, Option.map_some']
    rw [hd]
  · simp only []
    rw [if_neg hd]
    simp only [List.cons_append, List.head?_cons, Option.map_some']
    exact congrArg some (by decide)

/-- Unfolding of `encrypt_secrets` on a non-empty file. -/
theorem encrypt_secrets_cons (x : Ext) (env : String → Option String) (l0 : String)
    (rest0 : List String) (mke : String) (mkArg : Option String) :
    encrypt_secrets x env (l0 :: rest0) mke mkArg
      = ((encLoop x mke (resolveKey env mke mkArg) (encBaseNames (l0 :: rest0)) (l0 :: rest0)).1,
         (if pyStrip l0 = HEADER_DISCLAIMER then ([] : List String)
          else [HEADER_DISCLAIMER ++ "\n"])
           ++ (encLoop x mke (resolveKey env mke mkArg) (encBaseNames (l0 :: rest0)) (l0 :: rest0)).2) :=
  rfl

/-! ## Concrete collaborators for witnesses and counterexamples -/

/-- A concrete instantiation of the external collaborators (a toy injective
cipher, toy hash and base64, fixed timestamp "T"). -/
def extA : Ext :=
  ⟨fun v _ => some ("CT" ++ v), fun c _ => c.drop 2, fun s => "H" ++ s,
   fun s => "B" ++ s, "T"⟩

/-- External collaborators whose cipher always raises (an invalid Fernet key). -/
def extFail : Ext :=
  ⟨fun _ _ => none, fun c _ => c, fun s => s, fun s => s, "T"⟩

/-! ## Claims -/

/-- C10: the file content decrypt-all produces does not depend on the
`master_key` argument passed to it: source line 215 re-resolves the key from
the environment variable named by `master_key_env`, discarding the argument,
so any two argument values give identical results. -/
theorem decrypt_ignores_key_argument (decv : String → String → String)
    (env : String → Option String) (lines : List String) (mke : String)
    (mk1 mk2 : Option String) :
    decrypt_secrets decv env lines mke mk1 = decrypt_secrets decv env lines mke mk2 :=
  rfl

/-- C8: when the configured key environment variable is unset or empty,
decrypt-all aborts before performing any write (`none`: the file is never
reopened for writing, so its content is byte-identical to before the call). -/
theorem decrypt_missing_key_no_write (decv : String → String → String)
    (env : String → Option String) (lines : List String) (mke : String)
    (mk : Option String) (h : env mke = none ∨ env mke = some "") :
    decrypt_secrets decv env lines mke mk = none := by
  unfold decrypt_secrets
  rcases h with h | h
  · rw [h]
  · rw [h]
    simp

theorem decrypt_missing_key_no_write_witness :
    ((fun _ : String => (none : Option String)) "APP_KEY" = none ∨
      (fun _ : String => (none : Option String)) "APP_KEY" = some "") ∧
    decrypt_secrets (fun c _ => c) (fun _ => none)
      ["FOO_ENCRYPTED = \"x\"\n"] "APP_KEY" (some "irrelevant") = none :=
  ⟨Or.inl rfl, decrypt_missing_key_no_write _ _ _ _ _ (Or.inl rfl)⟩

/-- C4 (counterexample): delete-one("FOO") on a file holding the pair keeps
the `FOO_ENCRYPTED` line — the claim says both lines of the pair are removed. -/
theorem delete_keeps_encrypted_line :
    delete_secret ["FOO = \"\"\n", "FOO_ENCRYPTED = \"abc\"\n"] "FOO"
      = ["FOO_ENCRYPTED = \"abc\"\n"] := by decide

/-- C4 (amended): delete-one removes exactly the non-comment, non-blank lines
whose text before the first `=` strips to the given name; every other line —
including the `X_ENCRYPTED` companion and the key declaration — passes through
unchanged, in order. -/
theorem delete_removes_exactly (lines : List String) (name : String) :
    delete_secret lines name
      = lines.filter (fun l =>
          decide (startsHash l = true ∨ pyStrip l = "" ∨ lhsName l ≠ name)) := by
  induction lines with
  | nil => rfl
  | cons l rest ih =>
    show (if startsHash l ∨ pyStrip l = "" then l :: delete_secret rest name
      else if lhsName l = name then delete_secret rest name
      else l :: delete_secret rest name) = _
    rw [List.filter_cons]
    by_cases h1 : startsHash l = true ∨ pyStrip l = ""
    · rw [if_pos (by exact h1), ih, if_pos (by
        simp only [decide_eq_true_eq]
        rcases h1 with h | h
        exacts [Or.inl h, Or.inr (Or.inl h)])]
    · rw [if_neg (by exact h1)]
      by_cases h2 : lhsName l = name
      · rw [if_pos h2, ih, if_neg (by
          simp only [decide_eq_true_eq]
          push_neg
          exact ⟨fun hh => h1 (Or.inl hh), fun hh => h1 (Or.inr hh), h2⟩)]
      · rw [if_neg h2, ih, if_pos (by
          simp only [decide_eq_true_eq]
          exact Or.inr (Or.inr h2))]

/-- C2 (code evaluated at the failing input): two secrets `A = "x"` and
`B = "y"` encrypted under the same key get different ciphertexts (CTx / CTy)
but the *same* stored signature field `BHk`: the signature written by
`encrypt_secrets` is `base64(sha512(master_key))[-8:]` — it depends only on
the key, ignoring ciphertext, timestamp and key-env-name, contrary to the
claim and to the module docstring's signature algorithm. -/
theorem signature_ignores_ciphertext :
    encrypt_secrets extA (fun _ => none) ["A = \"x\"\n", "B = \"y\"\n"] "MK" (some "k")
      = (some 2,
        ["# Generated by secman.py. Do not edit manually, unless you know what you are doing\n",
         "A = \"\"\n", "A_ENCRYPTED = \"CTx\"    #MK,BHk,T\n",
         "B = \"\"\n", "B_ENCRYPTED = \"CTy\"    #MK,BHk,T\n"]) ∧
    takeLast8 (signatureOf extA (some "k")) = "BHk" :=
  ⟨by decide, by decide⟩

/-- C3 (code evaluated at the failing input): a `FOO = ""` line with no
encrypted counterpart is *not* left untouched: `encrypt_value` is called on
the empty plaintext (producing "CT" here) and a `FOO_ENCRYPTED` line is
created, and the run returns count 1 — contradicting the claim and the
program's own printed note "Empty strings as secrets are not encrypted." -/
theorem empty_value_encrypted :
    encrypt_secrets extA (fun _ => none) ["FOO = \"\"\n"] "MK" (some "k")
      = (some 1,
        ["# Generated by secman.py. Do not edit manually, unless you know what you are doing\n",
         "FOO = \"\"\n", "FOO_ENCRYPTED = \"CT\"    #MK,BHk,T\n"]) ∧
    extA.encv "" (some "k") = some "CT" :=
  ⟨by decide, by decide⟩

/-- C5 (counterexample): starting from `foo bar = "x"` (a name that is not an
identifier), the second encrypt-all run is not a no-op: it returns a count of
1 (not 0) and changes the file content again. -/
theorem encrypt_not_idempotent_bad_name :
    (encrypt_secrets extA (fun _ => none)
        (encrypt_secrets extA (fun _ => none) ["foo bar = \"x\"\n"] "MK" (some "k")).2
        "MK" (some "k")).1 = some 1 ∧
    (encrypt_secrets extA (fun _ => none)
        (encrypt_secrets extA (fun _ => none) ["foo bar = \"x\"\n"] "MK" (some "k")).2
        "MK" (some "k")).2
      ≠ (encrypt_secrets extA (fun _ => none) ["foo bar = \"x\"\n"] "MK" (some "k")).2 :=
  ⟨by decide, by decide⟩

/-- C6 (counterexample): when the cipher raises on the only secret, the
on-disk file after the abort holds just the disclaimer — it is *not* unchanged
from before the call (`open(file, "w")` truncated it before the failure). -/
theorem encrypt_abort_truncates :
    encrypt_secrets extFail (fun _ => none) ["X = \"v\"\n"] "MK" (some "k")
      = (none,
        ["# Generated by secman.py. Do not edit manually, unless you know what you are doing\n"]) ∧
    (["# Generated by secman.py. Do not edit manually, unless you know what you are doing\n"]
        : List String)
      ≠ ["X = \"v\"\n"] :=
  ⟨by decide, by decide⟩

/-- C6 (amended): if `encrypt_value` raises on a secret (the first failing
one; every earlier line was processed without raising), encrypt-all aborts
the pass, but the file *is* left partially rewritten: `open(file, "w")` has
already truncated it, and it then holds the disclaimer header (newly written,
or already the first line of the prefix) followed by the rewritten lines of
the prefix preceding the failing secret — including secrets already rewritten
into encrypted form — not its original content. -/
theorem encrypt_abort_partial_content (x : Ext) (env : String → Option String)
    (pre : List String) (line : String) (rest : List String) (mke : String)
    (mkArg : Option String)
    (hpre : ∀ l ∈ pre, encStep x mke (resolveKey env mke mkArg)
        (encBaseNames (pre ++ line :: rest)) l ≠ none)
    (hfail : encStep x mke (resolveKey env mke mkArg)
        (encBaseNames (pre ++ line :: rest)) line = none) :
    encrypt_secrets x env (pre ++ line :: rest) mke mkArg
      = (none,
         (if pyStrip ((pre ++ line :: rest).headI) = HEADER_DISCLAIMER
          then ([] : List String) else [HEADER_DISCLAIMER ++ "\n"])
         ++ (encLoop x mke (resolveKey env mke mkArg)
             (encBaseNames (pre ++ line :: rest)) pre).2) := by
  have habort := encLoop_abort_general rest hpre hfail
  cases pre with
  | nil =>
    rw [List.nil_append] at habort hfail ⊢
    show encrypt_secrets x env (line :: rest) mke mkArg = _
    rw [encrypt_secrets_cons, habort]
    rfl
  | cons p ps =>
    rw [List.cons_append] at habort hfail ⊢
    show encrypt_secrets x env (p :: (ps ++ line :: rest)) mke mkArg = _
    rw [encrypt_secrets_cons, habort]
    rfl

/-- A cipher that succeeds on "x" but raises on "y": the file's first secret
is rewritten into encrypted form before the second one aborts the pass. -/
def extHalf : Ext :=
  ⟨fun v _ => if v = "y" then none else some ("CT" ++ v), fun c _ => c,
   fun s => s, fun s => s, "T"⟩

theorem encrypt_abort_partial_content_witness :
    (∀ l ∈ (["A = \"x\"\n"] : List String),
      encStep extHalf "MK" (resolveKey (fun _ => none) "MK" (some "k"))
        (encBaseNames (["A = \"x\"\n"] ++ "B = \"y\"\n" :: [])) l ≠ none) ∧
    encStep extHalf "MK" (resolveKey (fun _ => none) "MK" (some "k"))
      (encBaseNames (["A = \"x\"\n"] ++ "B = \"y\"\n" :: [])) "B = \"y\"\n" = none ∧
    encrypt_secrets extHalf (fun _ => none) (["A = \"x\"\n"] ++ "B = \"y\"\n" :: [])
        "MK" (some "k")
      = (none,
         (if pyStrip ((["A = \"x\"\n"] ++ "B = \"y\"\n" :: []).headI) = HEADER_DISCLAIMER
          then ([] : List String) else [HEADER_DISCLAIMER ++ "\n"])
         ++ (encLoop extHalf "MK" (resolveKey (fun _ => none) "MK" (some "k"))
             (encBaseNames (["A = \"x\"\n"] ++ "B = \"y\"\n" :: [])) ["A = \"x\"\n"]).2) :=
  ⟨by decide, by decide,
    encrypt_abort_partial_content _ _ _ _ _ _ _ (by decide) (by decide)⟩

/-- C7 (counterexample): decrypt-all on a file holding only the Unrecognized
line `hello world` produces the empty file: the line is silently dropped, not
passed through verbatim. -/
theorem decrypt_drops_unrecognized_example :
    decrypt_secrets (fun c _ => c) (fun _ => some "k") ["hello world\n"] "MK" none
      = some [] := by decide

/-- C7 (amended): decrypt-all silently DROPS every line that is not a comment,
not blank, and in which the quoted-assignment search finds no match — such an
Unrecognized line contributes nothing to the rewritten file. -/
theorem decrypt_drops_unrecognized (decv : String → String → String) (mk : String)
    (fullNames : List String) (line : String) (rest : List String)
    (h1 : startsHash line = false) (h2 : pyStrip line ≠ "")
    (h3 : searchSecret line.data = none) :
    decLoop decv mk fullNames (line :: rest) = decLoop decv mk fullNames rest := by
  have hstep : decStep decv mk fullNames line = [] := by
    unfold decStep
    rw [if_neg (by simp [h1, h2]), h3]
  show decStep decv mk fullNames line ++ decLoop decv mk fullNames rest = _
  rw [hstep, List.nil_append]

theorem decrypt_drops_unrecognized_witness :
    startsHash "hello world\n" = false ∧ pyStrip "hello world\n" ≠ "" ∧
    searchSecret ("hello world\n").data = none ∧
    decLoop (fun c _ => c) "k" [] ["hello world\n", "# x\n"]
      = decLoop (fun c _ => c) "k" [] ["# x\n"] :=
  ⟨by decide, by decide, by decide,
    decrypt_drops_unrecognized _ _ _ _ _ (by decide) (by decide) (by decide)⟩

/-- C9 (counterexample): delete-one (which mutates secrets and rewrites the
file) does not ensure the disclaimer header: deleting `FOO` from a
disclaimer-less file leaves `BAR = "2"` as the first line, which does not
strip to the disclaimer. -/
theorem delete_no_disclaimer :
    delete_secret ["FOO = \"1\"\n", "BAR = \"2\"\n"] "FOO" = ["BAR = \"2\"\n"] ∧
    pyStrip "BAR = \"2\"\n" ≠ HEADER_DISCLAIMER :=
  ⟨by decide, by decide⟩

/-- C9 (amended): only encrypt-all ensures the disclaimer header: for any
non-empty input the first line of whatever it writes (even on an aborted
pass) strips to the disclaimer; decrypt-all and delete-one add none. -/
theorem encrypt_ensures_disclaimer (x : Ext) (env : String → Option String)
    (lines : List String) (mke : String) (mkArg : Option String) (h : lines ≠ []) :
    ((encrypt_secrets x env lines mke mkArg).2.head?).map pyStrip
      = some HEADER_DISCLAIMER :=
  enc_content_head x env lines mke mkArg h

theorem encrypt_ensures_disclaimer_witness :
    (["FOO = \"1\"\n"] : List String) ≠ [] ∧
    ((encrypt_secrets extA (fun _ => none) ["FOO = \"1\"\n"] "MK" (some "k")).2.head?).map pyStrip
      = some HEADER_DISCLAIMER :=
  ⟨by decide, encrypt_ensures_disclaimer _ _ _ _ _ (by decide)⟩

theorem encLoop_cons_some {x : Ext} {mke : String} {mk : Option String}
    {seen : List String} {line : String} {k : Nat} {ch : List String}
    (h : encStep x mke mk seen line = some (k, ch)) (rest : List String) :
    encLoop x mke mk seen (line :: rest)
      = ((encLoop x mke mk seen rest).1.map (fun n => k + n),
         ch ++ (encLoop x mke mk seen rest).2) := by
  show (match encStep x mke mk seen line with
    | none => ((none : Option Nat), ([] : List String))
    | some kc => ((encLoop x mke mk seen rest).1.map (fun n => kc.1 + n),
        kc.2 ++ (encLoop x mke mk seen rest).2)) = _
  rw [h]

theorem decLoop_cons (decv : String → String → String) (mk : String)
    (F : List String) (line : String) (rest : List String) :
    decLoop decv mk F (line :: rest)
      = decStep decv mk F line ++ decLoop decv mk F rest := rfl

/-- C1: round trip.  For a file declaring the key environment variable and
holding one plain secret `name = "value"` with a non-empty, well-formed value,
running encrypt-all and then decrypt-all under the same key (assuming the
cipher contract `decrypt(encrypt(v)) = v` and quote- and newline-free
ciphertext) restores the original plain line exactly: the final file is the
disclaimer, the untouched key declaration, and the original `name = "value"`
line — and no `name_ENCRYPTED` line remains. -/
theorem encrypt_decrypt_round_trip (x : Ext) (env : String → Option String)
    (name value mke key ct : String)
    (hname : IdentStr name) (hnEnc : ¬ EndsEnc name) (hnMKE : name ≠ "MASTER_KEY_ENV")
    (hval : value ≠ "")
    (hvalC : ∀ c ∈ value.data, c ≠ '"' ∧ c ≠ '\n')
    (hmke : ∀ c ∈ mke.data, c ≠ '"' ∧ c ≠ '\'' ∧ c ≠ '\n')
    (henv : env mke = some key) (hkey : key ≠ "")
    (henc : x.encv value (some key) = some ct)
    (hct : ∀ c ∈ ct.data, c ≠ '"' ∧ c ≠ '\'' ∧ c ≠ '\n')
    (hdec : x.decv ct key = value) :
    decrypt_secrets x.decv env
        (encrypt_secrets x env
          ["MASTER_KEY_ENV = \"" ++ mke ++ "\"\n", name ++ " = \"" ++ value ++ "\"\n"]
          mke none).2
        mke none
      = some [HEADER_DISCLAIMER ++ "\n",
              "MASTER_KEY_ENV = \"" ++ mke ++ "\"\n",
              name ++ " = \"" ++ value ++ "\"\n"] := by
  have hvd : value.data ≠ [] := fun h0 => hval (str_ext (by rw [h0]))
  have hq : ∀ c ∈ value.data, c ≠ '"' := fun c hc => (hvalC c hc).1
  have hmk : resolveKey env mke none = some key := henv
  have hml : ("MASTER_KEY_ENV = \"" ++ mke ++ "\"\n")
      = ("MASTER_KEY_ENV" ++ " = \"" ++ mke ++ "\"\n") := rfl
  have hef1 : encLineFull ("MASTER_KEY_ENV = \"" ++ mke ++ "\"\n") = none := by
    rw [hml]
    exact encLineFull_assign mke (by decide) (by decide)
  have hef2 : encLineFull (name ++ " = \"" ++ value ++ "\"\n") = none :=
    encLineFull_assign value hname hnEnc
  have hseen : encBaseNames ["MASTER_KEY_ENV = \"" ++ mke ++ "\"\n",
      name ++ " = \"" ++ value ++ "\"\n"] = [] := by
    simp [encBaseNames, hef1, hef2]
  have hstep1 : encStep x mke (some key) [] ("MASTER_KEY_ENV = \"" ++ mke ++ "\"\n")
      = some (0, ["MASTER_KEY_ENV = \"" ++ mke ++ "\"\n"]) :=
    encStep_mke x mke (some key) [] mke
  have hstep2 : encStep x mke (some key) [] (name ++ " = \"" ++ value ++ "\"\n")
      = some (1, encChunk x mke (some key) name ct) :=
    encStep_assign_new x mke (some key) [] hname hnEnc hnMKE
      (List.not_mem_nil name) hvd hq henc
  have hloop : encLoop x mke (some key) []
      ["MASTER_KEY_ENV = \"" ++ mke ++ "\"\n", name ++ " = \"" ++ value ++ "\"\n"]
      = (some 1, ("MASTER_KEY_ENV = \"" ++ mke ++ "\"\n")
          :: encChunk x mke (some key) name ct) := by
    rw [encLoop_cons_some hstep1, encLoop_cons_some hstep2]
    simp [encLoop]
  have hmkedata : ("MASTER_KEY_ENV = \"" ++ mke ++ "\"\n").data
      = 'M' :: (("ASTER_KEY_ENV = \"" : String).data
          ++ (mke.data ++ ("\"\n" : String).data)) := by
    rw [data_append, data_append,
      show ("MASTER_KEY_ENV = \"" : String).data
        = 'M' :: ("ASTER_KEY_ENV = \"" : String).data from rfl]
    simp [List.append_assoc]
  have hhd : pyStrip ("MASTER_KEY_ENV = \"" ++ mke ++ "\"\n") ≠ HEADER_DISCLAIMER :=
    pyStrip_ne_disclaimer hmkedata (by decide) (by decide)
  have hENC : (encrypt_secrets x env
      ["MASTER_KEY_ENV = \"" ++ mke ++ "\"\n", name ++ " = \"" ++ value ++ "\"\n"]
      mke none).2
      = (HEADER_DISCLAIMER ++ "\n") :: ("MASTER_KEY_ENV = \"" ++ mke ++ "\"\n")
          :: encChunk x mke (some key) name ct := by
    rw [encrypt_secrets_cons, hmk, hseen, hloop]
    simp only []
    rw [if_neg hhd, List.singleton_append]
  rw [hENC, encChunk_eq]
  have hf1 : encLineFull (HEADER_DISCLAIMER ++ "\n") = none :=
    encLineFull_hash (by decide)
  have hf3 : encLineFull (name ++ " = \"\"\n") = none :=
    encLineFull_assign_empty hname hnEnc
  have hf4 : encLineFull (name ++ ("_ENCRYPTED = \"" ++ (ct ++ ("\"    #" ++ (mke ++ ("," ++
      (takeLast8 (signatureOf x (some key)) ++ ("," ++ (x.now ++ "\n")))))))))
      = some (name ++ "_ENCRYPTED") :=
    encLineFull_meta _ hname
  unfold decrypt_secrets
  rw [henv]
  simp only []
  rw [if_neg hkey]
  have hF : encFullNames [HEADER_DISCLAIMER ++ "\n",
      "MASTER_KEY_ENV = \"" ++ mke ++ "\"\n",
      name ++ " = \"\"\n",
      name ++ ("_ENCRYPTED = \"" ++ (ct ++ ("\"    #" ++ (mke ++ ("," ++
        (takeLast8 (signatureOf x (some key)) ++ ("," ++ (x.now ++ "\n"))))))))]
      = [name ++ "_ENCRYPTED"] := by
    simp [encFullNames, hf1, hef1, hf3, hf4]
  rw [hF]
  have hd1 : decStep x.decv key [name ++ "_ENCRYPTED"] (HEADER_DISCLAIMER ++ "\n")
      = [HEADER_DISCLAIMER ++ "\n"] := by
    unfold decStep
    rw [if_pos (Or.inl (by decide))]
  have hd2 := decStep_mke x.decv key [name ++ "_ENCRYPTED"] mke hmke
  have hd3 := decStep_skip x.decv key [name ++ "_ENCRYPTED"] hname hnMKE hnEnc
    (List.mem_singleton.mpr rfl)
  have hd4 := decStep_meta x.decv key [name ++ "_ENCRYPTED"] ct
    (mke ++ ("," ++ (takeLast8 (signatureOf x (some key)) ++ ("," ++ (x.now ++ "\n")))))
    hname hct
  rw [decLoop_cons, decLoop_cons, decLoop_cons, decLoop_cons, hd1, hd2, hd3, hd4, hdec]
  simp [decLoop]

theorem encrypt_decrypt_round_trip_witness :
    IdentStr "FOO" ∧ ¬ EndsEnc "FOO" ∧ "FOO" ≠ "MASTER_KEY_ENV" ∧
    "bar" ≠ "" ∧ (∀ c ∈ ("bar" : String).data, c ≠ '"' ∧ c ≠ '\n') ∧
    (∀ c ∈ ("APP_KEY" : String).data, c ≠ '"' ∧ c ≠ '\'' ∧ c ≠ '\n') ∧
    (fun s => if s = "APP_KEY" then some "K" else none) "APP_KEY" = some "K" ∧
    "K" ≠ "" ∧
    extA.encv "bar" (some "K") = some "CTbar" ∧
    (∀ c ∈ ("CTbar" : String).data, c ≠ '"' ∧ c ≠ '\'' ∧ c ≠ '\n') ∧
    extA.decv "CTbar" "K" = "bar" ∧
    decrypt_secrets extA.decv (fun s => if s = "APP_KEY" then some "K" else none)
        (encrypt_secrets extA (fun s => if s = "APP_KEY" then some "K" else none)
          ["MASTER_KEY_ENV = \"" ++ "APP_KEY" ++ "\"\n", "FOO" ++ " = \"" ++ "bar" ++ "\"\n"]
          "APP_KEY" none).2
        "APP_KEY" none
      = some [HEADER_DISCLAIMER ++ "\n",
              "MASTER_KEY_ENV = \"" ++ "APP_KEY" ++ "\"\n",
              "FOO" ++ " = \"" ++ "bar" ++ "\"\n"] :=
  ⟨by decide, by decide, by decide, by decide, by decide, by decide, by decide,
   by decide, by decide, by decide, by decide,
   encrypt_decrypt_round_trip extA (fun s => if s = "APP_KEY" then some "K" else none)
     "FOO" "bar" "APP_KEY" "K" "CTbar" (by decide) (by decide) (by decide) (by decide)
     (by decide) (by decide) (by decide) (by decide) (by decide) (by decide) (by decide)⟩

theorem dropLast10_enc (n : String) : dropLast10 (n ++ "_ENCRYPTED") = n := by
  rw [show n ++ "_ENCRYPTED" = (⟨n.data ++ ("_ENCRYPTED" : String).data⟩ : String) from
    str_ext (data_append _ _), dropLast10_append, mk_data_self]

/-- Every line a successful `encStep` writes for a well-named input line is a
fixpoint of `encStep` under any superset of the seen-names that contains the
base name of every newly written `_ENCRYPTED` pair. -/
theorem encStep_stable {x : Ext} {mke : String} {mk : Option String}
    {seen1 seen2 : List String} {li : String} {k : Nat} {ch : List String}
    (hP : WellNamed li) (hsub : ∀ s ∈ seen1, s ∈ seen2)
    (h : encStep x mke mk seen1 li = some (k, ch))
    (henc2 : ∀ sn ct : String, ch = encChunk x mke mk sn ct → IdentStr sn →
      ¬ EndsEnc sn → sn ≠ "MASTER_KEY_ENV" → sn ∈ seen2) :
    ∀ l ∈ ch, encStep x mke mk seen2 l = some (0, [l]) := by
  by_cases h1 : startsHash li = true ∨ pyStrip li = ""
  · have hch : ch = [li] := by
      unfold encStep at h
      rw [if_pos h1] at h
      exact (congrArg Prod.snd (Option.some.inj h)).symm
    subst hch
    intro l hl
    have hli : l = li := List.mem_singleton.mp hl
    subst hli
    unfold encStep
    rw [if_pos h1]
  · unfold encStep at h
    rw [if_neg h1] at h
    cases hsp : splitFirstEq li.data with
    | none =>
      rw [hsp] at h
      have hch : ch = [li] := (congrArg Prod.snd (Option.some.inj h)).symm
      subst hch
      intro l hl
      have hli : l = li := List.mem_singleton.mp hl
      subst hli
      unfold encStep
      rw [if_neg h1, hsp]
    | some p =>
      rw [hsp] at h
      simp only [] at h
      have hident : IdentStr (pyStrip ⟨p.1⟩) := by
        rcases hP with hP | hP | hP | hP
        · exact absurd (Or.inl hP) h1
        · exact absurd (Or.inr hP) h1
        · rw [hP] at hsp
          cases hsp
        · unfold lhsName at hP
          rw [hsp] at hP
          exact hP
      by_cases h3 : pyStrip ⟨p.1⟩ = "MASTER_KEY_ENV"
      · rw [if_pos h3] at h
        have hch : ch = [li] := (congrArg Prod.snd (Option.some.inj h)).symm
        subst hch
        intro l hl
        have hli : l = li := List.mem_singleton.mp hl
        subst hli
        unfold encStep
        rw [if_neg h1, hsp]
        simp only []
        rw [if_pos h3]
      · rw [if_neg h3] at h
        by_cases h4 : EndsEnc (pyStrip ⟨p.1⟩)
        · rw [if_pos h4] at h
          have hch : ch = [li] := (congrArg Prod.snd (Option.some.inj h)).symm
          subst hch
          intro l hl
          have hli : l = li := List.mem_singleton.mp hl
          subst hli
          unfold encStep
          rw [if_neg h1, hsp]
          simp only []
          rw [if_neg h3, if_pos h4]
        · rw [if_neg h4] at h
          by_cases h5 : pyStrip ⟨p.1⟩ ∈ seen1
          · rw [if_pos h5] at h
            have hch : ch = [pyStrip ⟨p.1⟩ ++ " = \"\"\n"] :=
              (congrArg Prod.snd (Option.some.inj h)).symm
            subst hch
            intro l hl
            have hli := List.mem_singleton.mp hl
            subst hli
            exact encStep_already_empty x mke mk seen2 hident h4 h3 (hsub _ h5)
          · rw [if_neg h5] at h
            cases henc : x.encv (stripQuotes (pyStrip ⟨p.2⟩)) mk with
            | none =>
              rw [henc] at h
              cases h
            | some ct =>
              rw [henc] at h
              have hch : ch = encChunk x mke mk (pyStrip ⟨p.1⟩) ct :=
                (congrArg Prod.snd (Option.some.inj h)).symm
              have hseen2 : pyStrip ⟨p.1⟩ ∈ seen2 := henc2 _ ct hch hident h4 h3
              subst hch
              intro l hl
              rw [encChunk_eq] at hl
              rcases List.mem_cons.mp hl with rfl | hl
              · exact encStep_already_empty x mke mk seen2 hident h4 h3 hseen2
              · have hli := List.mem_singleton.mp hl
                subst hli
                exact encStep_metaline x mke mk seen2 _ hident

/-- C5 (amended): for files in which every non-comment, non-blank line
containing `=` has a well-formed identifier as its (stripped) left-hand side,
encrypt-all is idempotent: after a successful first run, running encrypt-all
again on the output returns a count of 0 newly encrypted secrets and leaves
the file content identical (each already-encrypted secret stays an
empty-valued plain line; ciphertext and metadata are untouched). -/
theorem encrypt_idempotent_wellnamed (x : Ext) (env : String → Option String)
    (lines : List String) (mke : String) (mkArg : Option String) (c : Nat)
    (hP : ∀ l ∈ lines, WellNamed l) (hne : lines ≠ [])
    (hsucc : (encrypt_secrets x env lines mke mkArg).1 = some c) :
    encrypt_secrets x env (encrypt_secrets x env lines mke mkArg).2 mke mkArg
      = (some 0, (encrypt_secrets x env lines mke mkArg).2) := by
  obtain ⟨l0, rest, rfl⟩ : ∃ a r, lines = a :: r := by
    cases lines with
    | nil => exact absurd rfl hne
    | cons a r => exact ⟨a, r, rfl⟩
  have hcons := encrypt_secrets_cons x env l0 rest mke mkArg
  have hloopc : (encLoop x mke (resolveKey env mke mkArg)
      (encBaseNames (l0 :: rest)) (l0 :: rest)).1 = some c := by
    have h2 := hsucc
    rw [hcons] at h2
    exact h2
  have hpair : encLoop x mke (resolveKey env mke mkArg) (encBaseNames (l0 :: rest)) (l0 :: rest)
      = (some c, (encLoop x mke (resolveKey env mke mkArg)
          (encBaseNames (l0 :: rest)) (l0 :: rest)).2) := by
    rw [← hloopc]
  have hout : (encrypt_secrets x env (l0 :: rest) mke mkArg).2
      = (if pyStrip l0 = HEADER_DISCLAIMER then ([] : List String)
          else [HEADER_DISCLAIMER ++ "\n"])
        ++ (encLoop x mke (resolveKey env mke mkArg)
            (encBaseNames (l0 :: rest)) (l0 :: rest)).2 := by
    rw [hcons]
  have hsubset : ∀ b ∈ encBaseNames (l0 :: rest),
      b ∈ encBaseNames ((encrypt_secrets x env (l0 :: rest) mke mkArg).2) := by
    intro b hb
    obtain ⟨li, hli, hmap⟩ := List.mem_filterMap.mp hb
    obtain ⟨f, hf, hdrop⟩ := Option.map_eq_some'.mp hmap
    have hstep := encStep_of_encLineFull hf x mke (resolveKey env mke mkArg)
      (encBaseNames (l0 :: rest))
    have hsub1 : [li] ⊆ (encLoop x mke (resolveKey env mke mkArg)
        (encBaseNames (l0 :: rest)) (l0 :: rest)).2 :=
      encLoop_chunk_sub hpair li hli 0 [li] hstep
    have hmem : li ∈ (encrypt_secrets x env (l0 :: rest) mke mkArg).2 := by
      rw [hout]
      exact List.mem_append_right _ (hsub1 (List.mem_singleton.mpr rfl))
    exact List.mem_filterMap.mpr ⟨li, hmem, by rw [hf]; simp [hdrop]⟩
  have hfix : ∀ l ∈ (encrypt_secrets x env (l0 :: rest) mke mkArg).2,
      encStep x mke (resolveKey env mke mkArg)
        (encBaseNames ((encrypt_secrets x env (l0 :: rest) mke mkArg).2)) l
        = some (0, [l]) := by
    intro l hl
    rw [hout] at hl
    rcases List.mem_append.mp hl with hl | hl
    · have hd : pyStrip l = HEADER_DISCLAIMER := by
        by_cases hd0 : pyStrip l0 = HEADER_DISCLAIMER
        · rw [if_pos hd0] at hl
          cases hl
        · rw [if_neg hd0] at hl
          rw [List.mem_singleton.mp hl]
          decide
      exact encStep_of_strip_disclaimer hd
    · obtain ⟨li, hli, k, ch, hstep1, hlch, hchsub⟩ := encLoop_chunks hpair l hl
      refine encStep_stable (hP li hli) hsubset hstep1 ?_ l hlch
      intro sn ct hcheq hid hee hmk2
      have hline2 : (sn ++ ("_ENCRYPTED = \"" ++ (ct ++ ("\"    #" ++ (mke ++ ("," ++
          (takeLast8 (signatureOf x (resolveKey env mke mkArg))
            ++ ("," ++ (x.now ++ "\n"))))))))) ∈ ch := by
        rw [hcheq, encChunk_eq]
        simp
      have hmem2 : (sn ++ ("_ENCRYPTED = \"" ++ (ct ++ ("\"    #" ++ (mke ++ ("," ++
          (takeLast8 (signatureOf x (resolveKey env mke mkArg))
            ++ ("," ++ (x.now ++ "\n")))))))))
          ∈ (encrypt_secrets x env (l0 :: rest) mke mkArg).2 := by
        rw [hout]
        exact List.mem_append_right _ (hchsub hline2)
      refine List.mem_filterMap.mpr ⟨_, hmem2, ?_⟩
      rw [encLineFull_meta _ hid]
      simp [dropLast10_enc]
  have hhead := enc_content_head x env (l0 :: rest) mke mkArg (by simp)
  obtain ⟨o0, out2, hout2⟩ : ∃ a r,
      (encrypt_secrets x env (l0 :: rest) mke mkArg).2 = a :: r := by
    cases ho : (encrypt_secrets x env (l0 :: rest) mke mkArg).2 with
    | nil =>
      rw [ho] at hhead
      cases hhead
    | cons a r => exact ⟨a, r, rfl⟩
  have ho0 : pyStrip o0 = HEADER_DISCLAIMER := by
    rw [hout2] at hhead
    simpa using hhead
  have hfix2 : ∀ l ∈ (o0 :: out2),
      encStep x mke (resolveKey env mke mkArg) (encBaseNames (o0 :: out2)) l
        = some (0, [l]) := by
    rw [← hout2]
    exact hfix
  rw [hout2, encrypt_secrets_cons, encLoop_fixpoint hfix2, if_pos ho0]
  rfl

theorem encrypt_idempotent_wellnamed_witness :
    (∀ l ∈ (["MASTER_KEY_ENV = \"APP_KEY\"\n", "FOO = \"bar\"\n"] : List String),
      WellNamed l) ∧
    (["MASTER_KEY_ENV = \"APP_KEY\"\n", "FOO = \"bar\"\n"] : List String) ≠ [] ∧
    (encrypt_secrets extA (fun _ => none)
      ["MASTER_KEY_ENV = \"APP_KEY\"\n", "FOO = \"bar\"\n"] "APP_KEY" (some "k")).1
      = some 1 ∧
    encrypt_secrets extA (fun _ => none)
        (encrypt_secrets extA (fun _ => none)
          ["MASTER_KEY_ENV = \"APP_KEY\"\n", "FOO = \"bar\"\n"] "APP_KEY" (some "k")).2
        "APP_KEY" (some "k")
      = (some 0, (encrypt_secrets extA (fun _ => none)
          ["MASTER_KEY_ENV = \"APP_KEY\"\n", "FOO = \"bar\"\n"] "APP_KEY" (some "k")).2) :=
  ⟨by decide, by decide, by decide,
   encrypt_idempotent_wellnamed extA (fun _ => none) _ "APP_KEY" (some "k") 1
     (by decide) (by decide) (by decide)⟩

end Secman
